import Mathlib

/-!
# Verification of the sqlfluff reflow core (depth map and reflow point engine)

This file gives a shallow embedding of `src/sqlfluff/utils/reflow/depthmap.py`
and `src/sqlfluff/utils/reflow/elements.py` and proves or refutes the frozen
claims about them.

Conventions of the embedding:
* A raw segment (leaf token) is a `Seg`: a stable identity (`uuid`), the set of
  syntax-class tags (`classes`, checked by `is_type`), the raw text, an optional
  working position marker, and an `is_code` flag.  Position markers model the
  *working* location used throughout the reflow code.
* Python `assert` failures and raised exceptions are modelled by functions
  returning `Option`/`none`: an aborted operation yields no value.
* `hash(segment)` (the per-node ancestor identity used by the depth map) is
  modelled by the node's `uuid`, following the spec's design note that the
  structural hash stands for any stable per-node identity.
* `LintFix` objects are `LintFix` records; the in-place mutation of a pending
  fix's `edit` payload is modelled by returning the updated fix list.
-/

/-- Working position marker: (line, column), both 1-indexed in the source. -/
structure PosMarker where
  line : Nat
  col : Nat
deriving DecidableEq, Repr

/-- A raw segment (leaf token). `classes` models `class_types`; `pos` models
`pos_marker` (`none` for a not-yet-positioned synthetic segment). -/
structure Seg where
  uuid : Nat
  classes : List String
  raw : String
  pos : Option PosMarker
  isCode : Bool
deriving DecidableEq, Repr

/-- `seg.is_type(t)`: membership of `t` in the segment's class types. -/
def Seg.isType (s : Seg) (t : String) : Bool :=
  s.classes.contains t

/-- `PositionMarker.infer_next_position(raw, line_no, line_pos)`: the working
location immediately after a stretch of raw text. -/
def inferNextPos (raw : String) (line col : Nat) : Nat × Nat :=
  let nls := raw.toList.count '\n'
  if nls = 0 then (line, col + raw.length)
  else (line + nls, (raw.toList.reverse.takeWhile (fun c => c ≠ '\n')).length + 1)

/-- `seg.get_start_loc()`: the working (line, col) of the segment, if positioned. -/
def Seg.getStartLoc (s : Seg) : Option (Nat × Nat) :=
  s.pos.map (fun p => (p.line, p.col))

/-- `seg.get_end_loc()`: the working location after the segment's raw text. -/
def Seg.getEndLoc (s : Seg) : Option (Nat × Nat) :=
  s.pos.map (fun p => inferNextPos s.raw p.line p.col)

/-- Lexicographic comparison of (line, col) pairs, as Python tuple `<`. -/
def locLt (a b : Nat × Nat) : Bool :=
  a.1 < b.1 || (a.1 = b.1 && a.2 < b.2)

/-- A `LintFix`: an edit operation referencing segments.  `editType` is one of
`"delete"`, `"replace"`, `"create_before"`, `"create_after"`. -/
structure LintFix where
  editType : String
  anchor : Seg
  edit : List Seg
deriving DecidableEq, Repr

/-- `LintFix.delete(seg)`. -/
def LintFix.mkDelete (s : Seg) : LintFix :=
  { editType := "delete", anchor := s, edit := [] }

/-- Is the fix a creation-class edit? -/
def LintFix.isCreate (f : LintFix) : Bool :=
  f.editType = "create_before" || f.editType = "create_after"

/-- `DepthInfo` from `depthmap.py`: the per-leaf ancestor summary.  The
ancestor identity (`hash(ps.segment)` in the source) is a `Nat`. -/
structure DepthInfo where
  stackDepth : Nat
  stackHashes : List Nat
  stackHashSet : Finset Nat
  stackClassTypes : List (List String)
  stackPositions : List String
deriving DecidableEq

/-- `DepthInfo.common_with(other)`: set-intersect the identities, insist the
intersection is non-empty (the source `assert`s, modelled by `none`), and
return this side's ordered stack truncated to the intersection size. -/
def DepthInfo.commonWith (self other : DepthInfo) : Option (List Nat) :=
  let common : Finset Nat := self.stackHashSet ∩ other.stackHashes.toFinset
  if common = ∅ then none
  else some (self.stackHashes.take common.card)

/-- Lookup in a hash-keyed config mapping (`dict.get`). -/
def lookupCfg (m : List (Nat × String)) (k : Nat) : Option String :=
  (m.find? (fun e => e.1 = k)).map (fun e => e.2)

/-- `ReflowBlock`: non-editable content run with resolved spacing config. -/
structure ReflowBlock where
  segments : List Seg
  spacingBefore : String
  spacingAfter : String
  depthInfo : DepthInfo
  stackSpacingConfigs : List (Nat × String)
deriving DecidableEq

/-- `ReflowPoint._determine_constraints`: defaults from the flanking blocks,
then the spacing-within override of the most immediate common ancestor.
Source error paths (failed common-ancestor assert, unexpected override value)
are `none`. -/
def determineConstraints (prevBlock nextBlock : Option ReflowBlock)
    (stripNewlines : Bool) : Option (String × String × Bool) :=
  let preC := match prevBlock with
    | some b => b.spacingAfter
    | none => "single"
  let postC := match nextBlock with
    | some b => b.spacingBefore
    | none => "single"
  match prevBlock, nextBlock with
  | some pb, some nb =>
    match DepthInfo.commonWith pb.depthInfo nb.depthInfo with
    | none => none
    | some common =>
      match common.getLast? with
      | none => none
      | some key =>
        match lookupCfg pb.stackSpacingConfigs key with
        | none => some (preC, postC, stripNewlines)
        | some w =>
          if w = "" then some (preC, postC, stripNewlines)
          else if w = "touch" || w = "inline" then
            some ((if preC = "any" then preC else "touch"),
                  (if postC = "any" then postC else "touch"),
                  stripNewlines || w = "inline")
          else none
  | _, _ => some (preC, postC, stripNewlines)

/-- Is the segment a whitespace segment (`seg.is_type("whitespace")`)? -/
def isWs (s : Seg) : Bool :=
  s.isType "whitespace"

/-- Is the segment a newline (`seg.is_type("newline")`)? -/
def isNl (s : Seg) : Bool :=
  s.isType "newline"

/-- Is the segment an end-of-file marker (`seg.is_type("end_of_file")`)? -/
def isEof (s : Seg) : Bool :=
  s.isType "end_of_file"

/-- The scanning loop of `ReflowPoint._process_spacing`, threading the pending
whitespace run (`last_whitespace`).  Returns the removal buffer (in encounter
order) and the final pending run. -/
def psLoop (strip : Bool) : List Seg → List Seg → List Seg × List Seg
  | [], lastWs => ([], lastWs)
  | s :: rest, lastWs =>
    if isWs s then psLoop strip rest (lastWs ++ [s])
    else if isNl s || isEof s then
      if strip && isNl s then
        let r := psLoop strip rest lastWs
        (s :: r.1, r.2)
      else
        let r := psLoop strip rest []
        (lastWs ++ r.1, r.2)
    else psLoop strip rest lastWs

/-- `ReflowPoint._process_spacing`: prune trailing/duplicate whitespace.
Returns (pruned buffer, `last_whitespace` as the source returns it, deletion
fixes). -/
def processSpacing (segmentBuffer : List Seg) (strip : Bool) :
    List Seg × List Seg × List LintFix :=
  let r := psLoop strip segmentBuffer []
  let removal := if 2 ≤ r.2.length then r.1 ++ r.2.drop 1 else r.1
  (segmentBuffer.filter (fun s => decide (s ∉ removal)),
   r.2,
   removal.map LintFix.mkDelete)

/-- `WhitespaceSegment()`: a freshly created, not-yet-positioned single-space
whitespace segment. -/
def newWhitespace : Seg :=
  { uuid := 0, classes := ["whitespace", "raw"], raw := " ",
    pos := none, isCode := false }

/-- Find the first pending fix whose edit payload contains the segment with
uuid `u` and splice a fresh whitespace into its payload (`before` prepends,
otherwise appends).  Models the in-place `fix.edit` mutation; `none` when no
such fix exists (the source raises `ValueError`). -/
def spliceIntoFix (fixes : List LintFix) (u : Nat) (before : Bool) :
    Option (List LintFix) :=
  match fixes with
  | [] => none
  | f :: rest =>
    if f.edit ≠ [] && (f.edit.map Seg.uuid).contains u then
      some ((if before then { f with edit := newWhitespace :: f.edit }
             else { f with edit := f.edit ++ [newWhitespace] }) :: rest)
    else
      match spliceIntoFix rest u before with
      | some rest' => some (f :: rest')
      | none => none

/-- The insertion-target scan of `_handle_respace__inline_without_space`:
which flanking block edge is an unpositioned synthetic segment?  Returns
`none` on an out-of-bounds edge access (empty block, an `IndexError` in the
source); `some none` when both edges are positioned; `some (some (before, e))`
for the detected synthetic edge (`before = true` for the next block's first
segment). -/
def detectExistingFix (prevBlock nextBlock : Option ReflowBlock) :
    Option (Option (Bool × Seg)) :=
  match prevBlock with
  | some pb =>
    match pb.segments.getLast? with
    | none => none
    | some e =>
      if e.pos = none then some (some (false, e))
      else
        match nextBlock with
        | some nb =>
          match nb.segments.head? with
          | none => none
          | some e' => if e'.pos = none then some (some (true, e')) else some none
        | none => some none
  | none =>
    match nextBlock with
    | some nb =>
      match nb.segments.head? with
      | none => none
      | some e' => if e'.pos = none then some (some (true, e')) else some none
    | none => some none

/-- `ReflowPoint._handle_respace__inline_without_space`.  Returns the updated
buffer, the full fix list (`existing_fixes + new_fixes`), and the `edited`
flag; `none` models a raised exception.  NOTE: when both flanking blocks are
absent the source *constructs* a `NotImplementedError` but never raises it, so
that path returns normally with no new fix. -/
def handleRespaceInlineWithoutSpace (preC postC : String)
    (prevBlock nextBlock : Option ReflowBlock)
    (segmentBuffer : List Seg) (existingFixes : List LintFix) :
    Option (List Seg × List LintFix × Bool) :=
  if preC = "touch" ∨ preC = "any" ∨ postC = "touch" ∨ postC = "any" then
    some (segmentBuffer, existingFixes, false)
  else if preC = "single" ∧ postC = "single" then
    let buf := segmentBuffer ++ [newWhitespace]
    match detectExistingFix prevBlock nextBlock with
    | none => none
    | some (some (before, insertion)) =>
      match spliceIntoFix existingFixes insertion.uuid before with
      | none => none
      | some fixes' => some (buf, fixes', true)
    | some none =>
      match prevBlock with
      | some pb =>
        match pb.segments.getLast? with
        | none => none
        | some a =>
          some (buf, existingFixes ++
            [{ editType := "create_after", anchor := a,
               edit := [newWhitespace] }], true)
      | none =>
        match nextBlock with
        | some nb =>
          match nb.segments.head? with
          | none => none
          | some a =>
            some (buf, existingFixes ++
              [{ editType := "create_before", anchor := a,
                 edit := [newWhitespace] }], true)
        | none => some (buf, existingFixes, true)
  else none

mutual
/-- Modelled from the spec: a branch node of the parsed syntax tree with
ordered children ("Branch node: a tree node with ordered children (leaves or
branches), syntax-class tags, ...").  A leaf is a node with no children.  The
node's own data (identity, class tags, raw text, working position) lives in
`seg`.  A forest is the ordered child list (encoded first-order so that all
tree functions are structural recursions). -/
inductive STree where
  | mk (seg : Seg) (children : SForest)
deriving DecidableEq, Repr
/-- An ordered list of subtrees (children of a branch node). -/
inductive SForest where
  | nil
  | cons (t : STree) (ts : SForest)
deriving DecidableEq, Repr
end

/-- The data carried by the root node of a subtree. -/
def STree.seg : STree → Seg
  | .mk s _ => s

mutual
/-- Modelled from the spec: `root.path_to(target)` — "locate the path
(ancestor chain) from itself to a descendant leaf"; the ordered chain of
ancestor nodes, root first, excluding the target itself.  Targets are
identified by `uuid`.  `none` when the target is not a descendant. -/
def findPath : STree → Nat → Option (List STree)
  | .mk s cs, u =>
    if s.uuid = u then some []
    else (findPathF cs u).map (fun p => STree.mk s cs :: p)
/-- `findPath` over an ordered forest: first child that contains the target. -/
def findPathF : SForest → Nat → Option (List STree)
  | .nil, _ => none
  | .cons t ts, u =>
    match findPath t u with
    | some p => some p
    | none => findPathF ts u
end

/-- `root.path_to(seg)` as the reflow code consumes it: an empty list when the
target is the root itself or not a descendant. -/
def pathToList (root : STree) (u : Nat) : List STree :=
  (findPath root u).getD []

mutual
/-- Modelled from the spec: `segment.raw_segments` — the leaves of the
subtree, in order. -/
def rawSegments : STree → List Seg
  | .mk s .nil => [s]
  | .mk _ (.cons t ts) => rawSegmentsF (.cons t ts)
/-- `rawSegments` over an ordered forest. -/
def rawSegmentsF : SForest → List Seg
  | .nil => []
  | .cons t ts => rawSegments t ++ rawSegmentsF ts
end

mutual
/-- Modelled from the spec: `segment.recursive_crawl(ty)` — "search
descendants by class tag"; all subtree nodes (the node itself included) whose
class tags contain `ty`, in pre-order. -/
def recursiveCrawl (ty : String) : STree → List STree
  | .mk s cs =>
    (if s.isType ty then [STree.mk s cs] else []) ++ recursiveCrawlF ty cs
/-- `recursiveCrawl` over an ordered forest. -/
def recursiveCrawlF (ty : String) : SForest → List STree
  | .nil => []
  | .cons t ts => recursiveCrawl ty t ++ recursiveCrawlF ty ts
end

/-- `seg.is_type(x)` where `x` may be Python `None` (never matches). -/
def isTypeOpt (s : Seg) : Option String → Bool
  | none => false
  | some ty => s.isType ty

/-- The reverse path walk of `_determine_aligned_inline_spacing`: walk the
ancestor chain leaf-upward (the input list is already reversed), keep the
latest `within`-matching ancestor, stop after the first `boundary` match. -/
def alignParentOf (revPath : List STree) (within boundary : Option String)
    (acc : Option STree) : Option STree :=
  match revPath with
  | [] => acc
  | ps :: rest =>
    let acc' := if isTypeOpt ps.seg within then some ps else acc
    if isTypeOpt ps.seg boundary then acc' else alignParentOf rest within boundary acc'

/-- The sibling collection of `_determine_aligned_inline_spacing`: descendants
of the scope of class `ty`, purging any whose path from the scope crosses a
`boundary`-tagged ancestor. -/
def qualifyingSiblings (parent : STree) (ty : String) (boundary : Option String) :
    List STree :=
  (recursiveCrawl ty parent).filter
    (fun sib => !(pathToList parent sib.seg.uuid).any (fun ps => isTypeOpt ps.seg boundary))

/-- The same-line test of `_determine_aligned_inline_spacing`: is some sibling
on the working line of `nextSeg` but at a different column?  Evaluated with
Python's short-circuiting; a missing position marker reached during the scan
aborts (`none`). -/
def sameLineCheck : List STree → Seg → Option Bool
  | [], _ => some false
  | sib :: rest, nextSeg =>
    match sib.seg.pos with
    | none => none
    | some sp =>
      match nextSeg.pos with
      | none => none
      | some np =>
        if sp.line = np.line && sp.col ≠ np.col then some true
        else sameLineCheck rest nextSeg

/-- The inner sibling loop of the alignment scan: for each sibling whose
working location equals the current leaf's, record the end column of the last
code segment seen (when there is one), keeping the running maximum. -/
def alignStep (seg : Seg) (sib : STree) (lastCode : Option Seg) (m : Nat) :
    Option Nat :=
  match seg.pos, sib.seg.pos with
  | some sp, some bp =>
    if sp.line = bp.line && sp.col = bp.col then
      match lastCode with
      | some lc =>
        match lc.pos with
        | none => none
        | some lcp =>
          let loc := inferNextPos lc.raw lcp.line lcp.col
          some (if m < loc.2 then loc.2 else m)
      | none => some m
    else some m
  | _, _ => none

/-- The recursion over siblings for one scanned leaf. -/
def alignInner (seg : Seg) : List STree → Option Seg → Nat → Option Nat
  | [], _, m => some m
  | sib :: rest, lastCode, m =>
    match alignStep seg sib lastCode m with
    | none => none
    | some m' => alignInner seg rest lastCode m'

/-- The outer scan of the alignment resolver: walk the scope's leaves in
order, tracking the last code leaf, and accumulate the maximum desired end
column over location-matched siblings. -/
def alignScan : List Seg → List STree → Option Seg → Nat → Option Nat
  | [], _, _, m => some m
  | seg :: rest, sibs, lastCode, m =>
    match alignInner seg sibs lastCode m with
    | none => none
    | some m' =>
      alignScan rest sibs (if seg.isCode then some seg else lastCode) m'

/-- A run of `n` space characters. -/
def mkSpaces (n : Nat) : String :=
  String.mk (List.replicate n ' ')

/-- `ReflowPoint._determine_aligned_inline_spacing`: work out the desired
whitespace for an `align` constraint.  `none` models an exception (a missing
position marker dereferenced by the source). -/
def determineAlignedInlineSpacing (root : STree) (wsSeg nextSeg : Seg)
    (segTy : String) (alignWithin alignBoundary : Option String) :
    Option String :=
  match alignParentOf (pathToList root nextSeg.uuid).reverse alignWithin alignBoundary none with
  | none => some " "
  | some parent =>
    let sibs := qualifyingSiblings parent segTy alignBoundary
    match sameLineCheck sibs nextSeg with
    | none => none
    | some true => some " "
    | some false =>
      match alignScan (rawSegments parent) sibs none 0 with
      | none => none
      | some m =>
        match wsSeg.pos with
        | none => none
        | some wp => some (mkSpaces (1 + m - wp.col))

/-- Python `s.startswith(p)`, written so that it reduces in the kernel. -/
def strStartsWith (s p : String) : Bool :=
  List.isPrefixOf p.toList s.toList

/-- Python `s.split(":")` on the character list, structurally recursive. -/
def splitOnColon : List Char → List (List Char)
  | [] => [[]]
  | x :: xs =>
    let r := splitOnColon xs
    if x = ':' then [] :: r
    else
      match r with
      | [] => [[x]]
      | h :: t => (x :: h) :: t

/-- Python `s.split(":")`. -/
def strSplitOn (s : String) : List String :=
  (splitOnColon s.toList).map String.mk

/-- `ReflowPoint._handle_respace__inline_with_space`: verify/correct the size
of the surviving whitespace.  Returns the updated buffer and the delta fixes;
`none` models a raised exception. -/
def handleRespaceInlineWithSpace (preC postC : String)
    (nextBlock : Option ReflowBlock) (root : STree)
    (segmentBuffer : List Seg) (lastWhitespace : List Seg) :
    Option (List Seg × List LintFix) :=
  match lastWhitespace.head? with
  | none => none
  | some wsSeg =>
    match segmentBuffer.indexOf? wsSeg with
    | none => none
    | some wsIdx =>
      if preC = "any" || postC = "any" then some (segmentBuffer, [])
      else if preC = "touch" || postC = "touch" then
        some (segmentBuffer.eraseIdx wsIdx,
              [{ editType := "delete", anchor := wsSeg, edit := [] }])
      else if (strStartsWith postC "align" && nextBlock.isSome)
              || (preC = "single" && postC = "single") then
        let desired? : Option String :=
          if strStartsWith postC "align" && nextBlock.isSome then
            let cfg := strSplitOn postC
            match cfg.get? 1 with
            | none => none
            | some segTy =>
              match nextBlock with
              | none => none
              | some nb =>
                match nb.segments.head? with
                | none => none
                | some nxt =>
                  determineAlignedInlineSpacing root wsSeg nxt segTy
                    (cfg.get? 2) (cfg.get? 3)
          else some " "
        match desired? with
        | none => none
        | some desired =>
          if wsSeg.raw ≠ desired then
            let newSeg := { wsSeg with raw := desired }
            some (segmentBuffer.set wsIdx newSeg,
                  [{ editType := "replace", anchor := wsSeg, edit := [newSeg] }])
          else some (segmentBuffer, [])
      else none

/-- `ReflowPoint.respace_point`: resolve constraints, prune, then either the
newline cleanup, the inline-with-space, or the inline-without-space case.
Returns the final fix list and the new point's buffer; `none` models a raised
exception. -/
def respacePoint (pointSegs : List Seg) (prevBlock nextBlock : Option ReflowBlock)
    (root : STree) (fixes : List LintFix) (stripNewlines : Bool) :
    Option (List LintFix × List Seg) :=
  match determineConstraints prevBlock nextBlock stripNewlines with
  | none => none
  | some (preC, postC, strip) =>
    let pr := processSpacing pointSegs strip
    let segmentBuffer := pr.1
    let lastWs := pr.2.1
    let newFixes := pr.2.2
    if segmentBuffer.any (fun s => isNl s || isEof s) then
      if lastWs.length = 1 then
        match lastWs.head? with
        | none => none
        | some wsSeg =>
          match List.indexOf? wsSeg pointSegs with
          | none => none
          | some wsIdx =>
            if wsIdx = 0 then some (fixes ++ newFixes, segmentBuffer)
            else
              match pointSegs.get? (wsIdx - 1) with
              | none => none
              | some prevSeg =>
                if isNl prevSeg then
                  match prevSeg.getEndLoc, wsSeg.getStartLoc with
                  | some el, some sl =>
                    if locLt el sl then
                      some (fixes ++ (newFixes ++ [LintFix.mkDelete wsSeg]),
                            segmentBuffer.erase wsSeg)
                    else some (fixes ++ newFixes, segmentBuffer)
                  | _, _ => none
                else some (fixes ++ newFixes, segmentBuffer)
      else some (fixes ++ newFixes, segmentBuffer)
    else
      if lastWs.isEmpty then
        match handleRespaceInlineWithoutSpace preC postC prevBlock nextBlock
            segmentBuffer fixes with
        | none => none
        | some (buf', fixes', _) => some (fixes' ++ newFixes, buf')
      else
        match handleRespaceInlineWithSpace preC postC nextBlock root
            segmentBuffer lastWs with
        | none => none
        | some (buf', delta) => some (fixes ++ (newFixes ++ delta), buf')

/-! ## Claims -/

/-- **C9**: when the two ancestor-identity sets have empty intersection,
`common_with` aborts loudly (the `assert`, modelled by `none`) rather than
returning a value, and it never silently returns an empty prefix (for any
`DepthInfo` whose cached hash set is consistent with its ordered stack, as
every constructed one is). -/
theorem c9_commonWith_aborts_on_empty_intersection :
    (∀ a b : DepthInfo, a.stackHashSet ∩ b.stackHashes.toFinset = ∅ →
      a.commonWith b = none) ∧
    (∀ a b : DepthInfo, a.stackHashSet = a.stackHashes.toFinset →
      a.commonWith b ≠ some []) := by
  constructor
  · intro a b h
    simp [DepthInfo.commonWith, h]
  · intro a b h hcontra
    rw [DepthInfo.commonWith] at hcontra
    by_cases hc : a.stackHashSet ∩ b.stackHashes.toFinset = ∅
    · simp [hc] at hcontra
    · simp only [hc, if_false, Option.some.injEq] at hcontra
      rcases List.take_eq_nil_iff.mp hcontra with h0 | hnil
      · exact hc (Finset.card_eq_zero.mp h0)
      · apply hc
        have : a.stackHashSet = ∅ := by
          rw [h, hnil]
          rfl
        rw [this]
        exact Finset.empty_inter _

/-- Witness for C9 at concrete depth infos. -/
theorem c9_witness :
    (DepthInfo.commonWith ⟨1, [5], {5}, [["a"]], [""]⟩
        ⟨1, [7], {7}, [["b"]], [""]⟩ = none) ∧
    (DepthInfo.commonWith ⟨1, [5], {5}, [["a"]], [""]⟩
        ⟨1, [5], {5}, [["a"]], [""]⟩ ≠ some []) :=
  ⟨c9_commonWith_aborts_on_empty_intersection.1 _ _ (by decide),
   c9_commonWith_aborts_on_empty_intersection.2 _ _ (by decide)⟩

/-- **C2**: the constraint resolver returns `pre_constraint` equal to the
previous block's `spacing_after` when present and `"single"` otherwise
(symmetrically for `post_constraint`); and when both blocks exist and the
most immediate shared ancestor (the last entry of the common prefix) carries
a `spacing_within` override of `"touch"` or `"inline"`, each constraint is
raised to `"touch"` unless it is already `"any"`, with `"inline"`
additionally forcing `strip_newlines` to true. -/
theorem c2_determineConstraints_spec :
    (∀ strip, determineConstraints none none strip =
        some ("single", "single", strip)) ∧
    (∀ pb strip, determineConstraints (some pb) none strip =
        some (pb.spacingAfter, "single", strip)) ∧
    (∀ nb strip, determineConstraints none (some nb) strip =
        some ("single", nb.spacingBefore, strip)) ∧
    (∀ pb nb strip common key,
      DepthInfo.commonWith pb.depthInfo nb.depthInfo = some common →
      common.getLast? = some key →
      (lookupCfg pb.stackSpacingConfigs key = none ∨
       lookupCfg pb.stackSpacingConfigs key = some "") →
      determineConstraints (some pb) (some nb) strip =
        some (pb.spacingAfter, nb.spacingBefore, strip)) ∧
    (∀ pb nb strip common key w,
      DepthInfo.commonWith pb.depthInfo nb.depthInfo = some common →
      common.getLast? = some key →
      lookupCfg pb.stackSpacingConfigs key = some w →
      (w = "touch" ∨ w = "inline") →
      determineConstraints (some pb) (some nb) strip =
        some ((if pb.spacingAfter = "any" then pb.spacingAfter else "touch"),
              (if nb.spacingBefore = "any" then nb.spacingBefore else "touch"),
              strip || w = "inline")) := by
  refine ⟨fun strip => rfl, fun pb strip => rfl, fun nb strip => rfl, ?_, ?_⟩
  · intro pb nb strip common key hcw hlast hlk
    rcases hlk with h | h <;>
      simp [determineConstraints, hcw, hlast, h]
  · intro pb nb strip common key w hcw hlast hlk hw
    have hne : w ≠ "" := by rcases hw with h | h <;> simp [h]
    have hto : (w = "touch" || w = "inline") = true := by
      rcases hw with h | h <;> simp [h]
    simp [determineConstraints, hcw, hlast, hlk, hne, hto]

/-- A concrete depth info sharing ancestor `5` with itself, used in witnesses. -/
def diOne : DepthInfo :=
  ⟨1, [5], {5}, [["expr"]], ["solo"]⟩

/-- A concrete block pair with an `inline` spacing-within override at the
shared ancestor, used in witnesses. -/
def blockInline : ReflowBlock :=
  ⟨[newWhitespace], "single", "single", diOne, [(5, "inline")]⟩

/-- Witness for C2: the override case at concrete blocks. -/
theorem c2_witness :
    determineConstraints (some blockInline) (some blockInline) false =
      some ("touch", "touch", true) := by
  have h := c2_determineConstraints_spec.2.2.2.2 blockInline blockInline false
    [5] 5 "inline" (by decide) (by decide) (by decide) (Or.inr rfl)
  simpa using h

/-- `spliceIntoFix` succeeds exactly by extending the payload of the first
matching pending fix, leaving every other fix unchanged. -/
theorem spliceIntoFix_spec (fixes : List LintFix) (u : Nat) (b : Bool)
    (fixes' : List LintFix) (h : spliceIntoFix fixes u b = some fixes') :
    ∃ n f, fixes.get? n = some f ∧ f.edit ≠ [] ∧ u ∈ f.edit.map Seg.uuid ∧
      fixes' = fixes.set n
        (if b then { f with edit := newWhitespace :: f.edit }
         else { f with edit := f.edit ++ [newWhitespace] }) := by
  induction fixes generalizing fixes' with
  | nil => simp [spliceIntoFix] at h
  | cons f rest ih =>
    rw [spliceIntoFix] at h
    split at h
    · rename_i hcond
      refine ⟨0, f, rfl, ?_, ?_, ?_⟩
      · intro he
        simp [he] at hcond
      · simp only [Bool.and_eq_true, decide_eq_true_eq] at hcond
        simpa using hcond.2
      · cases h
        rfl
    · rename_i hcond
      cases hr : spliceIntoFix rest u b with
      | none => rw [hr] at h; cases h
      | some rest' =>
        rw [hr] at h
        cases h
        obtain ⟨n, f', hget, hne, hmem, hset⟩ := ih rest' hr
        exact ⟨n + 1, f', hget, hne, hmem, by simp [hset]⟩

/-- `spliceIntoFix` succeeds whenever some pending fix's payload contains the
target uuid. -/
theorem spliceIntoFix_isSome (fixes : List LintFix) (u : Nat) (b : Bool)
    (h : ∃ f ∈ fixes, f.edit ≠ [] ∧ u ∈ f.edit.map Seg.uuid) :
    ∃ fixes', spliceIntoFix fixes u b = some fixes' := by
  induction fixes with
  | nil => simp at h
  | cons f rest ih =>
    rw [spliceIntoFix]
    by_cases hc : (decide (f.edit ≠ []) && (f.edit.map Seg.uuid).contains u) = true
    · rw [if_pos hc]
      exact ⟨_, rfl⟩
    · rw [if_neg hc]
      have : ∃ g ∈ rest, g.edit ≠ [] ∧ u ∈ g.edit.map Seg.uuid := by
        obtain ⟨g, hg, hne, hmem⟩ := h
        rcases List.mem_cons.mp hg with rfl | hg'
        · exfalso
          apply hc
          simp [hne, hmem]
        · exact ⟨g, hg', hne, hmem⟩
      obtain ⟨fixes', hf⟩ := ih this
      rw [hf]
      exact ⟨_, rfl⟩

/-- Replacing one list entry by one with the same predicate value preserves
the predicate count. -/
theorem countP_set_congr {α : Type} (l : List α) (n : Nat) (a b : α) (p : α → Bool)
    (hg : l.get? n = some b) (hp : p a = p b) :
    (l.set n a).countP p = l.countP p := by
  induction l generalizing n with
  | nil => simp at hg
  | cons x xs ih =>
    cases n with
    | zero =>
      simp only [List.get?_cons_zero, Option.some.injEq] at hg
      subst hg
      simp [List.set, List.countP_cons, hp]
    | succ n =>
      simp only [List.get?_cons_succ] at hg
      simp [List.set, List.countP_cons, ih n hg]

/-- The insertion-target scan only errors on an empty flanking block. -/
theorem detect_ne_none (prevBlock nextBlock : Option ReflowBlock)
    (hpb : ∀ pb, prevBlock = some pb → pb.segments ≠ [])
    (hnb : ∀ nb, nextBlock = some nb → nb.segments ≠ []) :
    detectExistingFix prevBlock nextBlock ≠ none := by
  cases prevBlock with
  | none =>
    cases nextBlock with
    | none => simp [detectExistingFix]
    | some nb =>
      have h := hnb nb rfl
      rw [detectExistingFix.eq_def]
      cases hh : nb.segments.head? with
      | none => exact absurd (List.head?_eq_none_iff.mp hh) h
      | some e => by_cases he : e.pos = none <;> simp [hh, he]
  | some pb =>
    have h := hpb pb rfl
    rw [detectExistingFix.eq_def]
    cases hl : pb.segments.getLast? with
    | none => exact absurd (List.getLast?_eq_none_iff.mp hl) h
    | some e =>
      by_cases he : e.pos = none
      · simp [hl, he]
      · cases nextBlock with
        | none => simp [hl, he]
        | some nb =>
          have h2 := hnb nb rfl
          cases hh : nb.segments.head? with
          | none => exact absurd (List.head?_eq_none_iff.mp hh) h2
          | some e' => by_cases he' : e'.pos = none <;> simp [hl, he, hh, he']

/-- **C1 (amended)**: for a point with no whitespace leaf, both constraints
`single` and *at least one flanking block present*, the handler inserts
exactly one whitespace leaf of width 1 into the buffer and produces exactly
one creation edit; when the adjacent block's edge leaf is a not-yet-positioned
synthetic leaf, it instead splices the space into that leaf's existing pending
edit payload (which the claim presupposes to be in the passed fix list),
appending no new fix, so two creation edits are never anchored at the same
gap.  (The original claim, without the at-least-one-block proviso, is refuted
by `c1_counterexample`.) -/
theorem c1_amended (preC postC : String) (prevBlock nextBlock : Option ReflowBlock)
    (buf : List Seg) (fixes : List LintFix)
    (hpre : preC = "single") (hpost : postC = "single")
    (hblocks : prevBlock.isSome ∨ nextBlock.isSome)
    (hpb : ∀ pb, prevBlock = some pb → pb.segments ≠ [])
    (hnb : ∀ nb, nextBlock = some nb → nb.segments ≠ [])
    (hnws : ∀ s ∈ buf, isWs s = false)
    (hsplice : ∀ b e, detectExistingFix prevBlock nextBlock = some (some (b, e)) →
        ∃ f ∈ fixes, f.edit ≠ [] ∧ e.uuid ∈ f.edit.map Seg.uuid) :
    ∃ fixes',
      handleRespaceInlineWithoutSpace preC postC prevBlock nextBlock buf fixes =
        some (buf ++ [newWhitespace], fixes', true) ∧
      (buf ++ [newWhitespace]).countP (fun s => isWs s) = 1 ∧
      newWhitespace.raw.length = 1 ∧
      (detectExistingFix prevBlock nextBlock = some none →
          ∃ c : LintFix, c.isCreate = true ∧ c.edit = [newWhitespace] ∧
            fixes' = fixes ++ [c]) ∧
      (∀ b e, detectExistingFix prevBlock nextBlock = some (some (b, e)) →
          ∃ n f, fixes.get? n = some f ∧
            fixes' = fixes.set n
              (if b then { f with edit := newWhitespace :: f.edit }
               else { f with edit := f.edit ++ [newWhitespace] }) ∧
            fixes'.length = fixes.length ∧
            fixes'.countP (fun g => g.isCreate) =
              fixes.countP (fun g => g.isCreate)) := by
  subst hpre hpost
  have hcount : (buf ++ [newWhitespace]).countP (fun s => isWs s) = 1 := by
    rw [List.countP_append]
    rw [List.countP_eq_zero.mpr (by intro s hs; simp [hnws s hs])]
    decide
  rw [handleRespaceInlineWithoutSpace, if_neg (by decide), if_pos (by decide)]
  cases hd : detectExistingFix prevBlock nextBlock with
  | none => exact absurd hd (detect_ne_none prevBlock nextBlock hpb hnb)
  | some o =>
    cases o with
    | some pe =>
      obtain ⟨b, e⟩ := pe
      obtain ⟨fixes', hf⟩ :=
        spliceIntoFix_isSome fixes e.uuid b (hsplice b e hd)
      dsimp only
      rw [hf]
      refine ⟨fixes', rfl, hcount, rfl, ?_, ?_⟩
      · intro hcontra
        simp at hcontra
      · intro b' e' hd'
        obtain ⟨hb, he⟩ : b = b' ∧ e = e' := by
          have := Option.some.inj (Option.some.inj hd')
          exact ⟨congrArg Prod.fst this, congrArg Prod.snd this⟩
        subst hb
        subst he
        obtain ⟨n, f, hget, hne, hmem, hset⟩ :=
          spliceIntoFix_spec fixes e.uuid b fixes' hf
        refine ⟨n, f, hget, hset, ?_, ?_⟩
        · rw [hset, List.length_set]
        · rw [hset]
          apply countP_set_congr fixes n _ f _ hget
          cases b <;> rfl
    | none =>
      cases hp : prevBlock with
      | some pb =>
        have hpbne := hpb pb hp
        cases hl : pb.segments.getLast? with
        | none => exact absurd (List.getLast?_eq_none_iff.mp hl) hpbne
        | some a =>
          dsimp only
          rw [hl]
          refine ⟨_, rfl, hcount, rfl, ?_, ?_⟩
          · intro _
            exact ⟨{ editType := "create_after", anchor := a,
                     edit := [newWhitespace] }, rfl, rfl, rfl⟩
          · intro b' e' hd'
            simp at hd'
      | none =>
        cases hn : nextBlock with
        | none =>
          rw [hp] at hblocks
          rw [hn] at hblocks
          simp at hblocks
        | some nb =>
          have hnbne := hnb nb hn
          cases hh : nb.segments.head? with
          | none => exact absurd (List.head?_eq_none_iff.mp hh) hnbne
          | some a =>
            dsimp only
            rw [hh]
            refine ⟨_, rfl, hcount, rfl, ?_, ?_⟩
            · intro _
              exact ⟨{ editType := "create_before", anchor := a,
                       edit := [newWhitespace] }, rfl, rfl, rfl⟩
            · intro b' e' hd'
              simp at hd'

/-- **C1 (counterexample)**: with *no* flanking block at all (both constraints
defaulting to `single`), the source appends the whitespace leaf but emits *no*
creation edit — the `NotImplementedError` at the end of
`_handle_respace__inline_without_space` is constructed but never raised, so
the call returns normally with an empty fix list, contradicting the claimed
"exactly one creation edit". -/
theorem c1_counterexample :
    handleRespaceInlineWithoutSpace "single" "single" none none [] [] =
      some ([newWhitespace], [], true) := by
  decide

/-- A concrete, positioned code segment for witnesses. -/
def segCode : Seg :=
  { uuid := 11, classes := ["raw"], raw := "a", pos := some ⟨1, 1⟩, isCode := true }

/-- A concrete previous block whose edge leaf is positioned. -/
def blockPrev : ReflowBlock :=
  ⟨[segCode], "single", "single", diOne, []⟩

/-- Witness for C1 (amended) at a concrete block configuration. -/
theorem c1_witness :
    ∃ fixes',
      handleRespaceInlineWithoutSpace "single" "single" (some blockPrev) none [] [] =
        some ([] ++ [newWhitespace], fixes', true) := by
  obtain ⟨fixes', h, -⟩ :=
    c1_amended "single" "single" (some blockPrev) none [] [] rfl rfl
      (Or.inl rfl)
      (by intro pb h; injection h with h2; subst h2; decide)
      (by intro nb h; cases h)
      (by intro s hs; cases hs)
      (by
        intro b e h
        rw [show detectExistingFix (some blockPrev) none = some none from rfl] at h
        simp at h)
  exact ⟨fixes', h⟩

/-- Modelled from the spec: what it means for two depth infos to have been
"built from leaves of the same tree".  Per the spec's data model, each stack
is the root-first chain of ancestor identities of a leaf; two leaves of one
tree share the non-empty chain down to their lowest common ancestor and then
diverge into disjoint subtrees, identities being unique per node.  Includes
the constructor invariants of `DepthInfo.from_raw_and_stack` (the cached hash
set and depth agree with the ordered stack, and identities do not repeat
within one chain). -/
def SameTreeStacks (a b : DepthInfo) : Prop :=
  a.stackHashSet = a.stackHashes.toFinset ∧
  b.stackHashSet = b.stackHashes.toFinset ∧
  a.stackDepth = a.stackHashes.length ∧
  b.stackDepth = b.stackHashes.length ∧
  a.stackHashes.Nodup ∧ b.stackHashes.Nodup ∧
  ∃ p ta tb, a.stackHashes = p ++ ta ∧ b.stackHashes = p ++ tb ∧
    p ≠ [] ∧ ∀ x ∈ ta, x ∉ tb

/-- Under the same-tree decomposition, the hash-set intersection computed by
`common_with` is exactly the shared prefix's element set. -/
theorem commonWith_inter_eq (a b : DepthInfo) (p ta tb : List Nat)
    (hsa : a.stackHashSet = a.stackHashes.toFinset)
    (ha : a.stackHashes = p ++ ta) (hb : b.stackHashes = p ++ tb)
    (hna : a.stackHashes.Nodup)
    (hdisj : ∀ x ∈ ta, x ∉ tb) :
    a.stackHashSet ∩ b.stackHashes.toFinset = p.toFinset := by
  have hdpa : p.Disjoint ta := by
    rw [ha, List.nodup_append] at hna
    exact hna.2.2
  ext x
  simp only [Finset.mem_inter, hsa, List.mem_toFinset, ha, hb, List.mem_append]
  constructor
  · rintro ⟨h1 | h1, h2 | h2⟩
    · exact h1
    · exact h1
    · exact h2
    · exact absurd h2 (hdisj x h1)
  · intro hx
    exact ⟨Or.inl hx, Or.inl hx⟩

/-- Under the same-tree decomposition, `common_with` returns exactly the
shared root-first prefix. -/
theorem commonWith_sameTree (a b : DepthInfo) (p ta tb : List Nat)
    (hsa : a.stackHashSet = a.stackHashes.toFinset)
    (ha : a.stackHashes = p ++ ta) (hb : b.stackHashes = p ++ tb)
    (hna : a.stackHashes.Nodup) (hp : p ≠ [])
    (hdisj : ∀ x ∈ ta, x ∉ tb) :
    a.commonWith b = some p := by
  have hinter := commonWith_inter_eq a b p ta tb hsa ha hb hna hdisj
  have hpnodup : p.Nodup := by
    rw [ha, List.nodup_append] at hna
    exact hna.1
  rw [DepthInfo.commonWith]
  simp only [hinter]
  rw [if_neg (by simp [List.toFinset_eq_empty_iff, hp])]
  rw [List.toFinset_card_of_nodup hpnodup, ha, List.take_left]

/-- **C4**: for two depth infos built from leaves of the same tree,
`common_with` returns a non-empty tuple of length at most
`min(stack_depth_a, stack_depth_b)`, and that tuple is the ordered prefix of
ancestor identities shared by both stacks (a prefix of both, containing
exactly the identities common to the two stacks). -/
theorem c4_commonWith_shared_prefix (a b : DepthInfo) (h : SameTreeStacks a b) :
    ∃ p, a.commonWith b = some p ∧ p ≠ [] ∧
      p.length ≤ min a.stackDepth b.stackDepth ∧
      (∃ ta, a.stackHashes = p ++ ta) ∧ (∃ tb, b.stackHashes = p ++ tb) ∧
      (∀ x, x ∈ p ↔ x ∈ a.stackHashes ∧ x ∈ b.stackHashes) := by
  obtain ⟨hsa, hsb, hda, hdb, hna, hnb, p, ta, tb, ha, hb, hp, hdisj⟩ := h
  have hdpa : p.Disjoint ta := by
    rw [ha, List.nodup_append] at hna
    exact hna.2.2
  refine ⟨p, commonWith_sameTree a b p ta tb hsa ha hb hna hp hdisj, hp, ?_,
    ⟨ta, ha⟩, ⟨tb, hb⟩, ?_⟩
  · rw [hda, hdb, ha, hb]
    simp [List.length_append]
  · intro x
    constructor
    · intro hx
      rw [ha, hb]
      exact ⟨List.mem_append_left _ hx, List.mem_append_left _ hx⟩
    · rintro ⟨hxa, hxb⟩
      rw [ha, List.mem_append] at hxa
      rw [hb, List.mem_append] at hxb
      rcases hxa with hxa | hxa
      · exact hxa
      · rcases hxb with hxb | hxb
        · exact absurd hxa (fun hmem => hdpa hxb hmem)
        · exact absurd hxb (hdisj x hxa)

/-- **C5**: `common_with` is symmetric up to ordering — for two depth infos
built from leaves of the same tree, the two directions return the same set of
identities (indeed the same list). -/
theorem c5_commonWith_symmetric (a b : DepthInfo) (h : SameTreeStacks a b) :
    ∃ pa pb, a.commonWith b = some pa ∧ b.commonWith a = some pb ∧
      pa.toFinset = pb.toFinset := by
  obtain ⟨hsa, hsb, hda, hdb, hna, hnb, p, ta, tb, ha, hb, hp, hdisj⟩ := h
  have hdisj' : ∀ x ∈ tb, x ∉ ta := by
    intro x hxb hxa
    exact hdisj x hxa hxb
  exact ⟨p, p, commonWith_sameTree a b p ta tb hsa ha hb hna hp hdisj,
    commonWith_sameTree b a p tb ta hsb hb ha hnb hp hdisj', rfl⟩

/-- A concrete depth info with stack `[1, 2]`, for witnesses. -/
def diA : DepthInfo :=
  ⟨2, [1, 2], {1, 2}, [["file"], ["stmt"]], ["solo", "start"]⟩

/-- A concrete depth info with stack `[1, 3]`, for witnesses. -/
def diB : DepthInfo :=
  ⟨2, [1, 3], {1, 3}, [["file"], ["stmt"]], ["solo", "end"]⟩

/-- The concrete pair `diA`, `diB` satisfies the same-tree decomposition. -/
theorem diA_diB_sameTree : SameTreeStacks diA diB := by
  refine ⟨by decide, by decide, rfl, rfl, by decide, by decide,
    [1], [2], [3], rfl, rfl, by decide, by decide⟩

/-- Witness for C4 at the concrete pair. -/
theorem c4_witness :
    ∃ p, diA.commonWith diB = some p ∧ p ≠ [] ∧
      p.length ≤ min diA.stackDepth diB.stackDepth ∧
      (∃ ta, diA.stackHashes = p ++ ta) ∧ (∃ tb, diB.stackHashes = p ++ tb) ∧
      (∀ x, x ∈ p ↔ x ∈ diA.stackHashes ∧ x ∈ diB.stackHashes) :=
  c4_commonWith_shared_prefix diA diB diA_diB_sameTree

/-- Witness for C5 at the concrete pair. -/
theorem c5_witness :
    ∃ pa pb, diA.commonWith diB = some pa ∧ diB.commonWith diA = some pb ∧
      pa.toFinset = pb.toFinset :=
  c5_commonWith_symmetric diA diB diA_diB_sameTree

/-- Every segment the scanning loop marks for removal is whitespace or (when
stripping) a newline. -/
theorem psLoop_removals_types (strip : Bool) :
    ∀ (l a : List Seg), (∀ x ∈ a, isWs x = true) →
      ∀ x ∈ (psLoop strip l a).1, isWs x = true ∨ (strip = true ∧ isNl x = true)
  | [], a, _ => by simp [psLoop]
  | s :: rest, a, ha => by
    rw [psLoop]
    by_cases hw : isWs s = true
    · rw [if_pos hw]
      exact psLoop_removals_types strip rest (a ++ [s])
        (by intro x hx
            rcases List.mem_append.mp hx with h | h
            · exact ha x h
            · rw [List.mem_singleton.mp h]; exact hw)
    · rw [if_neg hw]
      by_cases hb : (isNl s || isEof s) = true
      · rw [if_pos hb]
        by_cases hs : (strip && isNl s) = true
        · rw [if_pos hs]
          intro x hx
          rcases List.mem_cons.mp hx with rfl | hx'
          · right
            exact ⟨(Bool.and_eq_true _ _).mp hs |>.1, (Bool.and_eq_true _ _).mp hs |>.2⟩
          · exact psLoop_removals_types strip rest a ha x hx'
        · rw [if_neg hs]
          intro x hx
          rcases List.mem_append.mp hx with h | h
          · exact Or.inl (ha x h)
          · exact psLoop_removals_types strip rest [] (by simp) x h
      · rw [if_neg hb]
        exact psLoop_removals_types strip rest a ha

/-- The pending run returned by the scanning loop is all whitespace. -/
theorem psLoop_lastWs_ws (strip : Bool) :
    ∀ (l a : List Seg), (∀ x ∈ a, isWs x = true) →
      ∀ x ∈ (psLoop strip l a).2, isWs x = true
  | [], a, ha => by simpa [psLoop] using ha
  | s :: rest, a, ha => by
    rw [psLoop]
    by_cases hw : isWs s = true
    · rw [if_pos hw]
      exact psLoop_lastWs_ws strip rest (a ++ [s])
        (by intro x hx
            rcases List.mem_append.mp hx with h | h
            · exact ha x h
            · rw [List.mem_singleton.mp h]; exact hw)
    · rw [if_neg hw]
      by_cases hb : (isNl s || isEof s) = true
      · rw [if_pos hb]
        by_cases hs : (strip && isNl s) = true
        · rw [if_pos hs]
          exact psLoop_lastWs_ws strip rest a ha
        · rw [if_neg hs]
          exact psLoop_lastWs_ws strip rest [] (by simp)
      · rw [if_neg hb]
        exact psLoop_lastWs_ws strip rest a ha

/-- With no kept newline/end-of-file boundary, the scanning loop removes
exactly the stripped newlines and keeps the whole whitespace run pending. -/
theorem psLoop_no_boundary (strip : Bool) :
    ∀ (l a : List Seg),
      (∀ s ∈ l, isWs s = false → (isNl s || isEof s) = true → (strip && isNl s) = true) →
      psLoop strip l a =
        (l.filter (fun s => !isWs s && (isNl s || isEof s)),
         a ++ l.filter (fun s => isWs s))
  | [], a, _ => by simp [psLoop]
  | s :: rest, a, hnb => by
    have hrest : ∀ s ∈ rest, isWs s = false →
        (isNl s || isEof s) = true → (strip && isNl s) = true :=
      fun x hx => hnb x (List.mem_cons_of_mem s hx)
    rw [psLoop]
    by_cases hw : isWs s = true
    · rw [if_pos hw]
      rw [psLoop_no_boundary strip rest (a ++ [s]) hrest]
      simp [List.filter_cons, hw]
    · rw [if_neg hw]
      by_cases hb : (isNl s || isEof s) = true
      · rw [if_pos hb, if_pos (hnb s (List.mem_cons_self s rest) (by simpa using hw) hb)]
        rw [psLoop_no_boundary strip rest a hrest]
        simp [List.filter_cons, hw, hb]
      · rw [if_neg hb]
        rw [psLoop_no_boundary strip rest a hrest]
        simp [List.filter_cons, hw, hb]

/-- Simulation lemma: re-running the scanning loop on the input filtered by a
removal set `R` that covers all removals (and contains only whitespace and
stripped newlines) removes nothing further. -/
theorem psLoop_filter_sim (strip : Bool) (R : List Seg)
    (hR : ∀ x ∈ R, isWs x = true ∨ (strip = true ∧ isNl x = true)) :
    ∀ (l a : List Seg),
      (∀ x ∈ (psLoop strip l a).1, x ∈ R) →
      psLoop strip (l.filter (fun s => decide (s ∉ R)))
          (a.filter (fun s => decide (s ∉ R))) =
        ([], ((psLoop strip l a).2).filter (fun s => decide (s ∉ R)))
  | [], a, _ => by simp [psLoop]
  | s :: rest, a, hrem => by
    by_cases hw : isWs s = true
    · have hpse : psLoop strip (s :: rest) a = psLoop strip rest (a ++ [s]) := by
        rw [psLoop, if_pos hw]
      rw [hpse] at hrem
      by_cases hsR : s ∈ R
      · have : (s :: rest).filter (fun s => decide (s ∉ R)) =
            rest.filter (fun s => decide (s ∉ R)) := by
          simp [List.filter_cons, hsR]
        rw [this, hpse]
        have ha' : (a ++ [s]).filter (fun s => decide (s ∉ R)) =
            a.filter (fun s => decide (s ∉ R)) := by
          simp [List.filter_append, List.filter_cons, hsR]
        rw [← ha']
        exact psLoop_filter_sim strip R hR rest (a ++ [s]) hrem
      · have : (s :: rest).filter (fun s => decide (s ∉ R)) =
            s :: rest.filter (fun s => decide (s ∉ R)) := by
          simp [List.filter_cons, hsR]
        rw [this, hpse]
        rw [psLoop, if_pos hw]
        have ha' : (a ++ [s]).filter (fun s => decide (s ∉ R)) =
            a.filter (fun s => decide (s ∉ R)) ++ [s] := by
          simp [List.filter_append, List.filter_cons, hsR]
        rw [← ha']
        exact psLoop_filter_sim strip R hR rest (a ++ [s]) hrem
    · by_cases hb : (isNl s || isEof s) = true
      · by_cases hs : (strip && isNl s) = true
        · have hpse : psLoop strip (s :: rest) a =
              (s :: (psLoop strip rest a).1, (psLoop strip rest a).2) := by
            rw [psLoop, if_neg hw, if_pos hb, if_pos hs]
          rw [hpse] at hrem
          have hsR : s ∈ R := hrem s (List.mem_cons_self _ _)
          have hrem' : ∀ x ∈ (psLoop strip rest a).1, x ∈ R :=
            fun x hx => hrem x (List.mem_cons_of_mem _ hx)
          have : (s :: rest).filter (fun s => decide (s ∉ R)) =
              rest.filter (fun s => decide (s ∉ R)) := by
            simp [List.filter_cons, hsR]
          rw [this, hpse]
          exact psLoop_filter_sim strip R hR rest a hrem'
        · have hpse : psLoop strip (s :: rest) a =
              (a ++ (psLoop strip rest []).1, (psLoop strip rest []).2) := by
            rw [psLoop, if_neg hw, if_pos hb, if_neg hs]
          rw [hpse] at hrem
          have hsR : s ∉ R := by
            intro hmem
            rcases hR s hmem with h | ⟨h1, h2⟩
            · exact absurd h (by simp [hw])
            · subst h1
              simp [h2] at hs
          have hrem' : ∀ x ∈ (psLoop strip rest []).1, x ∈ R :=
            fun x hx => hrem x (List.mem_append_right _ hx)
          have haR : ∀ x ∈ a, x ∈ R :=
            fun x hx => hrem x (List.mem_append_left _ hx)
          have hfa : a.filter (fun s => decide (s ∉ R)) = [] := by
            apply List.filter_eq_nil_iff.mpr
            intro x hx
            simp [haR x hx]
          have : (s :: rest).filter (fun s => decide (s ∉ R)) =
              s :: rest.filter (fun s => decide (s ∉ R)) := by
            simp [List.filter_cons, hsR]
          rw [this, hpse, psLoop, if_neg hw, if_pos hb, if_neg hs]
          have hemp : ([] : List Seg) =
              ([] : List Seg).filter (fun s => decide (s ∉ R)) := rfl
          rw [hfa]
          rw [hemp]
          rw [psLoop_filter_sim strip R hR rest [] hrem']
          simp
      · have hpse : psLoop strip (s :: rest) a = psLoop strip rest a := by
          rw [psLoop, if_neg hw, if_neg hb]
        rw [hpse] at hrem
        have hsR : s ∉ R := by
          intro hmem
          rcases hR s hmem with h | ⟨h1, h2⟩
          · exact absurd h (by simp [hw])
          · rw [h2] at hb
            simp at hb
        have : (s :: rest).filter (fun s => decide (s ∉ R)) =
            s :: rest.filter (fun s => decide (s ∉ R)) := by
          simp [List.filter_cons, hsR]
        rw [this, hpse, psLoop, if_neg hw, if_neg hb]
        exact psLoop_filter_sim strip R hR rest a hrem

/-- **C3**: the Spacing Processor is idempotent — applying `_process_spacing`
a second time to the pruned buffer it returned (same flag) yields that buffer
unchanged and an empty list of deletion edits. -/
theorem c3_processSpacing_idempotent (buf : List Seg) (strip : Bool) :
    (processSpacing ((processSpacing buf strip).1) strip).1 =
      (processSpacing buf strip).1 ∧
    (processSpacing ((processSpacing buf strip).1) strip).2.2 = [] := by
  have hlwws := psLoop_lastWs_ws strip buf [] (by simp)
  have hremty := psLoop_removals_types strip buf [] (by simp)
  have hR : ∀ x ∈ (if 2 ≤ (psLoop strip buf []).2.length then
        (psLoop strip buf []).1 ++ (psLoop strip buf []).2.drop 1
      else (psLoop strip buf []).1),
      isWs x = true ∨ (strip = true ∧ isNl x = true) := by
    intro x hx
    split at hx
    · rcases List.mem_append.mp hx with h | h
      · exact hremty x h
      · exact Or.inl (hlwws x (List.mem_of_mem_drop h))
    · exact hremty x hx
  have hsub : ∀ x ∈ (psLoop strip buf []).1,
      x ∈ (if 2 ≤ (psLoop strip buf []).2.length then
        (psLoop strip buf []).1 ++ (psLoop strip buf []).2.drop 1
      else (psLoop strip buf []).1) := by
    intro x hx
    split
    · exact List.mem_append_left _ hx
    · exact hx
  have hsim := psLoop_filter_sim strip _ hR buf [] hsub
  set R := (if 2 ≤ (psLoop strip buf []).2.length then
      (psLoop strip buf []).1 ++ (psLoop strip buf []).2.drop 1
    else (psLoop strip buf []).1) with hRdef
  have hfst : (processSpacing buf strip).1 =
      buf.filter (fun s => decide (s ∉ R)) := rfl
  have hlw2 : ((psLoop strip buf []).2.filter (fun s => decide (s ∉ R))).length ≤ 1 := by
    by_cases h2 : 2 ≤ (psLoop strip buf []).2.length
    · obtain ⟨hd, tl, hcons⟩ :
          ∃ hd tl, (psLoop strip buf []).2 = hd :: tl := by
        cases hlst : (psLoop strip buf []).2 with
        | nil => rw [hlst] at h2; simp at h2
        | cons hd tl => exact ⟨hd, tl, rfl⟩
      have htl : ∀ x ∈ tl, x ∈ R := by
        intro x hx
        rw [hRdef, if_pos h2]
        apply List.mem_append_right
        rw [hcons]
        simpa using hx
      rw [hcons, List.filter_cons]
      have : tl.filter (fun s => decide (s ∉ R)) = [] := by
        apply List.filter_eq_nil_iff.mpr
        intro x hx
        simp [htl x hx]
      rw [this]
      split <;> simp
    · calc ((psLoop strip buf []).2.filter (fun s => decide (s ∉ R))).length
          ≤ (psLoop strip buf []).2.length := List.length_filter_le _ _
        _ ≤ 1 := by omega
  have hloop2 : psLoop strip (buf.filter (fun s => decide (s ∉ R))) [] =
      ([], (psLoop strip buf []).2.filter (fun s => decide (s ∉ R))) := hsim
  constructor
  · rw [hfst]
    show (let r := psLoop strip (buf.filter (fun s => decide (s ∉ R))) [];
      let removal := if 2 ≤ r.2.length then r.1 ++ r.2.drop 1 else r.1;
      ((buf.filter (fun s => decide (s ∉ R))).filter
        (fun s => decide (s ∉ removal)), r.2, removal.map LintFix.mkDelete)).1 =
      buf.filter (fun s => decide (s ∉ R))
    rw [hloop2]
    have hnotwo : ¬ 2 ≤ ((psLoop strip buf []).2.filter
        (fun s => decide (s ∉ R))).length := by omega
    simp only [if_neg hnotwo]
    apply List.filter_eq_self.mpr
    intro x _
    simp
  · rw [hfst]
    show (let r := psLoop strip (buf.filter (fun s => decide (s ∉ R))) [];
      let removal := if 2 ≤ r.2.length then r.1 ++ r.2.drop 1 else r.1;
      ((buf.filter (fun s => decide (s ∉ R))).filter
        (fun s => decide (s ∉ removal)), r.2, removal.map LintFix.mkDelete)).2.2 = []
    rw [hloop2]
    have hnotwo : ¬ 2 ≤ ((psLoop strip buf []).2.filter
        (fun s => decide (s ∉ R))).length := by omega
    simp only [if_neg hnotwo]
    simp

/-- **C10**: the pruned buffer is a subsequence of the input (nothing added,
reordered or duplicated), equals the input minus exactly the leaves in the
deletion edits, and every leaf marked for deletion is a `delete` of a
whitespace or newline leaf — content leaves are never deleted. -/
theorem c10_processSpacing_invariants (buf : List Seg) (strip : Bool) :
    ((processSpacing buf strip).1).Sublist buf ∧
    (processSpacing buf strip).1 =
      buf.filter (fun s =>
        decide (s ∉ ((processSpacing buf strip).2.2).map LintFix.anchor)) ∧
    ∀ f ∈ (processSpacing buf strip).2.2, f.editType = "delete" ∧ f.edit = [] ∧
      (isWs f.anchor = true ∨ isNl f.anchor = true) := by
  have hlwws := psLoop_lastWs_ws strip buf [] (by simp)
  have hremty := psLoop_removals_types strip buf [] (by simp)
  have hanchors : ((processSpacing buf strip).2.2).map LintFix.anchor =
      (if 2 ≤ (psLoop strip buf []).2.length then
        (psLoop strip buf []).1 ++ (psLoop strip buf []).2.drop 1
      else (psLoop strip buf []).1) := by
    show ((if 2 ≤ (psLoop strip buf []).2.length then
        (psLoop strip buf []).1 ++ (psLoop strip buf []).2.drop 1
      else (psLoop strip buf []).1).map LintFix.mkDelete).map LintFix.anchor = _
    rw [List.map_map]
    exact List.map_id _
  refine ⟨?_, ?_, ?_⟩
  · exact List.filter_sublist _
  · rw [hanchors]
    rfl
  · intro f hf
    have : ∃ s ∈ (if 2 ≤ (psLoop strip buf []).2.length then
        (psLoop strip buf []).1 ++ (psLoop strip buf []).2.drop 1
      else (psLoop strip buf []).1), LintFix.mkDelete s = f := by
      simpa using List.mem_map.mp hf
    obtain ⟨s, hs, rfl⟩ := this
    refine ⟨rfl, rfl, ?_⟩
    show isWs s = true ∨ isNl s = true
    split at hs
    · rcases List.mem_append.mp hs with h | h
      · rcases hremty s h with h' | ⟨_, h'⟩
        · exact Or.inl h'
        · exact Or.inr h'
      · exact Or.inl (hlwws s (List.mem_of_mem_drop h))
    · rcases hremty s hs with h' | ⟨_, h'⟩
      · exact Or.inl h'
      · exact Or.inr h'

/-- `list.index(x)` (as `indexOf?`) finds an index whose removal is exactly
`erase`. -/
theorem indexOf_erase_of_mem (x : Seg) :
    ∀ (l : List Seg), x ∈ l →
      ∃ i, List.indexOf? x l = some i ∧ l.eraseIdx i = l.erase x
  | [], h => absurd h (List.not_mem_nil x)
  | y :: rest, h => by
    by_cases hxy : (y == x) = true
    · refine ⟨0, ?_, ?_⟩
      · simp [List.indexOf?, List.findIdx?_cons, hxy]
      · simp [List.eraseIdx, List.erase_cons, hxy]
    · have hmem : x ∈ rest := by
        rcases List.mem_cons.mp h with rfl | h'
        · simp at hxy
        · exact h'
      obtain ⟨i, hi, he⟩ := indexOf_erase_of_mem x rest hmem
      refine ⟨i + 1, ?_, ?_⟩
      · simp only [List.indexOf?] at hi ⊢
        rw [List.findIdx?_cons]
        simp [hxy, hi]
      · simp [List.eraseIdx, List.erase_cons, hxy, he]

/-- **C6**: for a point whose buffer contains whitespace and whose pruned
buffer has no newline, with both resolved constraints `touch`, respace
returns a buffer with zero whitespace leaves and exactly one deletion edit
per removed leaf: the fixes are deletions of a duplicate-free anchor list,
the output buffer is the input minus exactly those anchors, and every
whitespace leaf of the input is among them (the anchors comprise the collapse
deletions from pruning, any stripped newlines, and the one retained
whitespace leaf). -/
theorem c6_respace_touch_deletes_all_whitespace
    (pointSegs : List Seg) (prevBlock nextBlock : Option ReflowBlock)
    (root : STree) (fixes0 : List LintFix) (strip strip2 : Bool)
    (hdc : determineConstraints prevBlock nextBlock strip =
      some ("touch", "touch", strip2))
    (hnodup : pointSegs.Nodup)
    (hasWs : ∃ s ∈ pointSegs, isWs s = true)
    (hprune : ∀ s ∈ (processSpacing pointSegs strip2).1,
      (isNl s || isEof s) = false) :
    ∃ anchors : List Seg,
      respacePoint pointSegs prevBlock nextBlock root fixes0 strip =
        some (fixes0 ++ anchors.map LintFix.mkDelete,
              pointSegs.filter (fun s => decide (s ∉ anchors))) ∧
      anchors.Nodup ∧ (∀ a ∈ anchors, a ∈ pointSegs) ∧
      (∀ s ∈ pointSegs, isWs s = true → s ∈ anchors) ∧
      (∀ s ∈ pointSegs.filter (fun s => decide (s ∉ anchors)), isWs s = false) := by
  have hremty := psLoop_removals_types strip2 pointSegs [] (by simp)
  have hlwws := psLoop_lastWs_ws strip2 pointSegs [] (by simp)
  -- Step 1: the input has no kept boundary.
  have hnob : ∀ s ∈ pointSegs, isWs s = false →
      (isNl s || isEof s) = true → (strip2 && isNl s) = true := by
    intro s hs hws hb
    by_contra hstr
    have hsR : s ∉ (if 2 ≤ (psLoop strip2 pointSegs []).2.length then
        (psLoop strip2 pointSegs []).1 ++ (psLoop strip2 pointSegs []).2.drop 1
      else (psLoop strip2 pointSegs []).1) := by
      intro hmem
      have htyp : isWs s = true ∨ (strip2 = true ∧ isNl s = true) := by
        split at hmem
        · rcases List.mem_append.mp hmem with h | h
          · exact hremty s h
          · exact Or.inl (hlwws s (List.mem_of_mem_drop h))
        · exact hremty s hmem
      rcases htyp with h | ⟨h1, h2⟩
      · rw [hws] at h
        simp at h
      · apply hstr
        rw [h1, h2]
        rfl
    have hmem1 : s ∈ (processSpacing pointSegs strip2).1 := by
      show s ∈ pointSegs.filter (fun t => decide (t ∉
        (if 2 ≤ (psLoop strip2 pointSegs []).2.length then
          (psLoop strip2 pointSegs []).1 ++ (psLoop strip2 pointSegs []).2.drop 1
        else (psLoop strip2 pointSegs []).1)))
      rw [List.mem_filter]
      exact ⟨hs, by simpa using hsR⟩
    have hcontra := hprune s hmem1
    rw [hb] at hcontra
    simp at hcontra
  -- Step 2: the whitespace run is non-empty.
  obtain ⟨sw, hsw, hsww⟩ := hasWs
  obtain ⟨whead, wtail, hwl⟩ :
      ∃ whead wtail, pointSegs.filter (fun s => isWs s) = whead :: wtail := by
    cases hl : pointSegs.filter (fun s => isWs s) with
    | nil =>
      exact absurd (List.mem_filter.mpr ⟨hsw, hsww⟩) (by rw [hl]; simp)
    | cons a b => exact ⟨a, b, rfl⟩
  have hwheadws : isWs whead = true := by
    have : whead ∈ pointSegs.filter (fun s => isWs s) := by
      rw [hwl]
      exact List.mem_cons_self _ _
    exact (List.mem_filter.mp this).2
  have hwheadpt : whead ∈ pointSegs := by
    have : whead ∈ pointSegs.filter (fun s => isWs s) := by
      rw [hwl]
      exact List.mem_cons_self _ _
    exact (List.mem_filter.mp this).1
  have hwslnodup : (whead :: wtail).Nodup := by
    rw [← hwl]
    exact hnodup.filter _
  -- Step 3: the scanning loop's explicit form.
  have hloop : psLoop strip2 pointSegs [] =
      (pointSegs.filter (fun s => !isWs s && (isNl s || isEof s)),
       whead :: wtail) := by
    rw [psLoop_no_boundary strip2 pointSegs [] hnob]
    rw [List.nil_append, hwl]
  -- Step 4: the removal buffer's explicit form.
  have hremoval : (if 2 ≤ (psLoop strip2 pointSegs []).2.length then
      (psLoop strip2 pointSegs []).1 ++ (psLoop strip2 pointSegs []).2.drop 1
    else (psLoop strip2 pointSegs []).1) =
      pointSegs.filter (fun s => !isWs s && (isNl s || isEof s)) ++ wtail := by
    rw [hloop]
    cases wtail with
    | nil =>
      rw [if_neg (by simp)]
      simp
    | cons a b =>
      rw [if_pos (by simp)]
      simp
  -- Step 5: components of processSpacing.
  have hpr1 : (processSpacing pointSegs strip2).1 =
      pointSegs.filter (fun s => decide (s ∉
        pointSegs.filter (fun t => !isWs t && (isNl t || isEof t)) ++ wtail)) := by
    show pointSegs.filter (fun s => decide (s ∉
      (if 2 ≤ (psLoop strip2 pointSegs []).2.length then
        (psLoop strip2 pointSegs []).1 ++ (psLoop strip2 pointSegs []).2.drop 1
      else (psLoop strip2 pointSegs []).1))) = _
    rw [hremoval]
  have hpr2 : (processSpacing pointSegs strip2).2.1 = whead :: wtail := by
    show (psLoop strip2 pointSegs []).2 = _
    rw [hloop]
  have hpr3 : (processSpacing pointSegs strip2).2.2 =
      (pointSegs.filter (fun t => !isWs t && (isNl t || isEof t)) ++ wtail).map
        LintFix.mkDelete := by
    show (if 2 ≤ (psLoop strip2 pointSegs []).2.length then
        (psLoop strip2 pointSegs []).1 ++ (psLoop strip2 pointSegs []).2.drop 1
      else (psLoop strip2 pointSegs []).1).map LintFix.mkDelete = _
    rw [hremoval]
  -- Step 6: the retained whitespace head survives pruning.
  have hwheadmem : whead ∈ pointSegs.filter (fun s => decide (s ∉
      pointSegs.filter (fun t => !isWs t && (isNl t || isEof t)) ++ wtail)) := by
    rw [List.mem_filter]
    refine ⟨hwheadpt, ?_⟩
    simp only [decide_eq_true_eq]
    intro hmem
    rcases List.mem_append.mp hmem with h | h
    · have := (List.mem_filter.mp h).2
      simp [hwheadws] at this
    · exact (List.nodup_cons.mp hwslnodup).1 h
  obtain ⟨idx, hidx, herase⟩ := indexOf_erase_of_mem whead _ hwheadmem
  -- The anchors: pruning removals then the retained whitespace leaf.
  refine ⟨pointSegs.filter (fun t => !isWs t && (isNl t || isEof t)) ++ wtail
      ++ [whead], ?_, ?_, ?_, ?_, ?_⟩
  · -- the main computation
    rw [respacePoint, hdc]
    dsimp only
    rw [hpr1, hpr2, hpr3]
    have hany : (pointSegs.filter (fun s => decide (s ∉
        pointSegs.filter (fun t => !isWs t && (isNl t || isEof t)) ++ wtail))).any
        (fun s => isNl s || isEof s) = false := by
      rw [List.any_eq_false]
      intro x hx
      have hx' := hprune x (by rw [hpr1]; exact hx)
      simp [hx']
    rw [hany]
    simp only [Bool.false_eq_true, if_false, List.isEmpty_cons]
    rw [handleRespaceInlineWithSpace]
    simp only [List.head?_cons]
    rw [hidx]
    dsimp only
    rw [if_neg (by decide), if_pos (by decide)]
    rw [herase]
    have hbufeq : (pointSegs.filter (fun s => decide (s ∉
        pointSegs.filter (fun t => !isWs t && (isNl t || isEof t)) ++ wtail))).erase
          whead =
        pointSegs.filter (fun s => decide (s ∉
          pointSegs.filter (fun t => !isWs t && (isNl t || isEof t)) ++ wtail
            ++ [whead])) := by
      rw [List.Nodup.erase_eq_filter (hnodup.filter _)]
      rw [List.filter_filter]
      apply List.filter_congr
      intro x _
      simp only [List.mem_append, List.mem_singleton, decide_eq_true_eq]
      by_cases h1 : x = whead
      · subst h1
        simp
      · by_cases h2 : x ∈ pointSegs.filter (fun t => !isWs t && (isNl t || isEof t))
          ∨ x ∈ wtail
        · simp [h1, h2, List.mem_append]
        · simp [h1, h2, List.mem_append]
    rw [hbufeq]
    simp [List.map_append, LintFix.mkDelete]
  · -- Nodup
    rw [List.nodup_append]
    refine ⟨?_, by simp, ?_⟩
    · rw [List.nodup_append]
      refine ⟨hnodup.filter _, (List.nodup_cons.mp hwslnodup).2, ?_⟩
      intro x hx1 hx2
      have h1 := (List.mem_filter.mp hx1).2
      have h2 : x ∈ pointSegs.filter (fun s => isWs s) := by
        rw [hwl]
        exact List.mem_cons_of_mem _ hx2
      have h3 := (List.mem_filter.mp h2).2
      simp [h3] at h1
    · intro x hx1 hx2
      rw [List.mem_singleton] at hx2
      subst hx2
      rcases List.mem_append.mp hx1 with h | h
      · have h1 := (List.mem_filter.mp h).2
        simp [hwheadws] at h1
      · exact (List.nodup_cons.mp hwslnodup).1 h
  · -- anchors ⊆ point
    intro a ha
    rcases List.mem_append.mp ha with h | h
    · rcases List.mem_append.mp h with h1 | h1
      · exact (List.mem_filter.mp h1).1
      · have : a ∈ pointSegs.filter (fun s => isWs s) := by
          rw [hwl]
          exact List.mem_cons_of_mem _ h1
        exact (List.mem_filter.mp this).1
    · rw [List.mem_singleton] at h
      subst h
      exact hwheadpt
  · -- every whitespace is an anchor
    intro s hs hws
    have hmem : s ∈ pointSegs.filter (fun t => isWs t) := List.mem_filter.mpr ⟨hs, hws⟩
    rw [hwl] at hmem
    rcases List.mem_cons.mp hmem with rfl | h
    · exact List.mem_append_right _ (List.mem_singleton.mpr rfl)
    · exact List.mem_append_left _ (List.mem_append_right _ h)
  · -- the result has no whitespace
    intro s hsmem
    rw [List.mem_filter] at hsmem
    obtain ⟨hs, hdec⟩ := hsmem
    simp only [decide_eq_true_eq] at hdec
    cases h : isWs s with
    | false => rfl
    | true =>
      exfalso
      apply hdec
      have hmem : s ∈ pointSegs.filter (fun t => isWs t) := List.mem_filter.mpr ⟨hs, h⟩
      rw [hwl] at hmem
      rcases List.mem_cons.mp hmem with rfl | hmem'
      · exact List.mem_append_right _ (List.mem_singleton.mpr rfl)
      · exact List.mem_append_left _ (List.mem_append_right _ hmem')

/-- A concrete single-space whitespace segment for witnesses. -/
def wsOne : Seg :=
  { uuid := 21, classes := ["whitespace"], raw := " ", pos := some ⟨1, 2⟩,
    isCode := false }

/-- A concrete block with `touch` spacing on both sides, for witnesses. -/
def blockTouch : ReflowBlock :=
  ⟨[segCode], "touch", "touch", diOne, []⟩

/-- A trivial tree root for cases that never consult the tree. -/
def rootNil : STree :=
  .mk { uuid := 100, classes := ["file"], raw := "", pos := none,
        isCode := false } .nil

/-- Witness for C6 at a concrete one-whitespace point between touch blocks. -/
theorem c6_witness :
    ∃ anchors : List Seg,
      respacePoint [wsOne] (some blockTouch) (some blockTouch) rootNil [] false =
        some ([] ++ anchors.map LintFix.mkDelete,
              [wsOne].filter (fun s => decide (s ∉ anchors))) ∧
      anchors.Nodup := by
  obtain ⟨a, h1, h2, -⟩ :=
    c6_respace_touch_deletes_all_whitespace [wsOne] (some blockTouch)
      (some blockTouch) rootNil [] false false (by decide) (by decide)
      (by decide) (by decide)
  exact ⟨a, h1, h2⟩

/-- **C8 (amended)**: for a point `[newline, whitespace]` respaced with
`strip_newlines = true` *and both resolved constraints `touch`* (as an
`inline`/`touch` spacing-within override produces), both leaves are deleted
and the returned point is empty.  (The original claim, silent on the
constraints, is refuted by `c8_counterexample`.) -/
theorem c8_amended (n w : Seg) (prevBlock nextBlock : Option ReflowBlock)
    (root : STree) (fixes0 : List LintFix)
    (hn : isNl n = true) (hnws : isWs n = false)
    (hw : isWs w = true) (hwnb : (isNl w || isEof w) = false)
    (hne : n ≠ w)
    (hdc : determineConstraints prevBlock nextBlock true =
      some ("touch", "touch", true)) :
    respacePoint [n, w] prevBlock nextBlock root fixes0 true =
      some (fixes0 ++ [LintFix.mkDelete n, LintFix.mkDelete w], []) := by
  have hloop : psLoop true [n, w] [] = ([n], [w]) := by
    rw [psLoop]
    rw [if_neg (by simp [hnws])]
    rw [if_pos (by simp [hn])]
    rw [if_pos (by simp [hn])]
    rw [psLoop]
    rw [if_pos hw]
    rw [psLoop]
    simp
  have hrem : (if 2 ≤ (psLoop true [n, w] []).2.length then
      (psLoop true [n, w] []).1 ++ (psLoop true [n, w] []).2.drop 1
    else (psLoop true [n, w] []).1) = [n] := by
    rw [hloop]
    simp
  have hpr1 : (processSpacing [n, w] true).1 = [w] := by
    show [n, w].filter (fun s => decide (s ∉
      (if 2 ≤ (psLoop true [n, w] []).2.length then
        (psLoop true [n, w] []).1 ++ (psLoop true [n, w] []).2.drop 1
      else (psLoop true [n, w] []).1))) = [w]
    rw [hrem]
    simp [List.filter_cons, Ne.symm hne]
  have hpr2 : (processSpacing [n, w] true).2.1 = [w] := by
    show (psLoop true [n, w] []).2 = [w]
    rw [hloop]
  have hpr3 : (processSpacing [n, w] true).2.2 = [LintFix.mkDelete n] := by
    show (if 2 ≤ (psLoop true [n, w] []).2.length then
        (psLoop true [n, w] []).1 ++ (psLoop true [n, w] []).2.drop 1
      else (psLoop true [n, w] []).1).map LintFix.mkDelete = [LintFix.mkDelete n]
    rw [hrem]
    rfl
  rw [respacePoint, hdc]
  dsimp only
  rw [hpr1, hpr2, hpr3]
  have hany : ([w].any (fun s => isNl s || isEof s)) = false := by
    simp [hwnb]
  rw [hany]
  simp only [Bool.false_eq_true, if_false, List.isEmpty_cons]
  rw [handleRespaceInlineWithSpace]
  simp only [List.head?_cons]
  have hidx : List.indexOf? w [w] = some 0 := by
    simp [List.indexOf?, List.findIdx?_cons]
  rw [hidx]
  dsimp only
  rw [if_neg (by decide), if_pos (by decide)]
  simp [List.eraseIdx, LintFix.mkDelete]

/-- A concrete newline segment for the C8 scenario. -/
def nlX : Seg :=
  { uuid := 31, classes := ["newline"], raw := "\n", pos := some ⟨1, 5⟩,
    isCode := false }

/-- A concrete two-space whitespace segment for the C8 scenario. -/
def wsX : Seg :=
  { uuid := 32, classes := ["whitespace"], raw := "  ", pos := some ⟨2, 1⟩,
    isCode := false }

/-- **C8 (counterexample)**: with default (`single`) constraints — e.g. no
flanking blocks — the same scenario deletes only the newline and *replaces*
the two-space whitespace by a single space: the returned point is `[" "]`,
not empty, contradicting the claim as stated. -/
theorem c8_counterexample :
    respacePoint [nlX, wsX] none none rootNil [] true =
      some ([LintFix.mkDelete nlX,
             { editType := "replace", anchor := wsX,
               edit := [{ wsX with raw := " " }] }],
            [{ wsX with raw := " " }]) ∧
    ([{ wsX with raw := " " }] : List Seg) ≠ [] := by
  constructor
  · decide
  · simp

/-- Witness for C8 (amended) at the concrete scenario segments between touch
blocks. -/
theorem c8_witness :
    respacePoint [nlX, wsX] (some blockTouch) (some blockTouch) rootNil [] true =
      some ([LintFix.mkDelete nlX, LintFix.mkDelete wsX], []) := by
  have h := c8_amended nlX wsX (some blockTouch) (some blockTouch) rootNil []
    (by decide) (by decide) (by decide) (by decide) (by decide) (by decide)
  simpa using h

/-- Claim-side: the region searched by the leaf-upward walk — the reversed
ancestor path up to and including the first `boundary` match. -/
def takeToBoundary (b : Option String) : List STree → List STree
  | [] => []
  | ps :: rest =>
    if isTypeOpt ps.seg b then [ps] else ps :: takeToBoundary b rest

/-- Claim-side, from the claim's words: "no ancestor of the next leaf matches
the `within` class (searching leaf-upward, stopping at the first `boundary`
match)". -/
def claimNoWithin (revPath : List STree) (w b : Option String) : Prop :=
  ∀ ps ∈ takeToBoundary b revPath, isTypeOpt ps.seg w = false

/-- The source's reverse path walk finds no alignment scope exactly when the
claim-side condition holds (given no scope was carried in). -/
theorem alignParentOf_none_iff (w b : Option String) :
    ∀ (revPath : List STree) (acc : Option STree),
      alignParentOf revPath w b acc = none ↔
        (acc = none ∧ claimNoWithin revPath w b)
  | [], acc => by
    simp [alignParentOf, claimNoWithin, takeToBoundary]
  | ps :: rest, acc => by
    rw [alignParentOf]
    by_cases hw : isTypeOpt ps.seg w = true
    · by_cases hb : isTypeOpt ps.seg b = true
      · rw [if_pos hw, if_pos hb]
        constructor
        · intro h
          cases h
        · rintro ⟨-, h⟩
          have := h ps (by rw [claimNoWithin] at *; simp [takeToBoundary, hb])
          simp [hw] at this
      · rw [if_pos hw, if_neg hb]
        rw [alignParentOf_none_iff w b rest (some ps)]
        constructor
        · rintro ⟨h, -⟩
          cases h
        · rintro ⟨-, h⟩
          have := h ps (by simp [takeToBoundary, hb])
          simp [hw] at this
    · rw [if_neg hw]
      have hwf : isTypeOpt ps.seg w = false := by
        cases h : isTypeOpt ps.seg w
        · rfl
        · exact absurd h hw
      by_cases hb : isTypeOpt ps.seg b = true
      · rw [if_pos hb]
        unfold claimNoWithin
        simp [takeToBoundary, hb, hwf]
      · rw [if_neg hb]
        rw [alignParentOf_none_iff w b rest acc]
        unfold claimNoWithin
        simp [takeToBoundary, hb, hwf]

/-- The same-line scan returns `false` when no sibling shares the next leaf's
working line at a different column (all positions present). -/
theorem sameLineCheck_false (nxt : Seg) (np : PosMarker) (hn : nxt.pos = some np) :
    ∀ sibs : List STree,
      (∀ sib ∈ sibs, sib.seg.pos ≠ none) →
      (∀ sib ∈ sibs, ∀ sp : PosMarker, sib.seg.pos = some sp →
        ¬(sp.line = np.line ∧ sp.col ≠ np.col)) →
      sameLineCheck sibs nxt = some false
  | [], _, _ => rfl
  | sib :: rest, hpos, hnl => by
    rw [sameLineCheck]
    cases hsp : sib.seg.pos with
    | none => exact absurd hsp (hpos sib (List.mem_cons_self _ _))
    | some sp =>
      rw [hn]
      dsimp only
      rw [if_neg (by
        intro hcontra
        simp only [Bool.and_eq_true, decide_eq_true_eq] at hcontra
        exact hnl sib (List.mem_cons_self _ _) sp hsp ⟨hcontra.1, by simpa using hcontra.2⟩)]
      exact sameLineCheck_false nxt np hn rest
        (fun s hs => hpos s (List.mem_cons_of_mem _ hs))
        (fun s hs => hnl s (List.mem_cons_of_mem _ hs))

/-- Claim-side: "the last code leaf before" scan position `i`, with an
optional seed standing for a code leaf seen before the scanned suffix. -/
def lastCodeSeed (lc : Option Seg) (raws : List Seg) (i : Nat) : Option Seg :=
  ((lc.toList ++ raws.take i).filter (fun s => s.isCode)).getLast?

/-- Claim-side, from the claim's words: scanning the scope's leaves in order,
for every position whose working location matches a qualifying sibling's,
record the end column of the last code leaf before it (seeded variant). -/
def claimRecordedSeed (lc : Option Seg) (raws : List Seg) (sibs : List STree) :
    List Nat :=
  (List.range raws.length).filterMap (fun i =>
    match raws.get? i with
    | none => none
    | some s =>
      if sibs.any (fun sib => decide (sib.seg.getStartLoc = s.getStartLoc)) then
        match lastCodeSeed lc raws i with
        | none => none
        | some c => c.getEndLoc.map (fun loc => loc.2)
      else none)

/-- Claim-side: the recorded sibling end columns (no seed). -/
def claimRecorded (raws : List Seg) (sibs : List STree) : List Nat :=
  claimRecordedSeed none raws sibs

/-- Claim-side: `max(recorded end columns)` (0 when none is recorded, as the
source's accumulator starts at 0). -/
def claimMax (l : List Nat) : Nat :=
  l.foldr max 0

/-- The per-leaf sibling loop computes the maximum with the last code leaf's
end column when some sibling matches this leaf's working location. -/
theorem alignInner_spec (s : Seg) (sp : PosMarker) (hs : s.pos = some sp) :
    ∀ (sibs : List STree) (lc : Option Seg) (m : Nat),
      (∀ sib ∈ sibs, sib.seg.pos ≠ none) →
      (∀ c, lc = some c → c.pos ≠ none) →
      alignInner s sibs lc m = some (
        if sibs.any (fun sib => decide (sib.seg.getStartLoc = s.getStartLoc)) then
          match lc with
          | none => m
          | some c => max m ((c.getEndLoc.map (fun loc => loc.2)).getD 0)
        else m)
  | [], lc, m, _, _ => by simp [alignInner]
  | sib :: rest, lc, m, hpos, hlc => by
    rw [alignInner]
    cases hbp : sib.seg.pos with
    | none => exact absurd hbp (hpos sib (List.mem_cons_self _ _))
    | some bp =>
      have hloc : (decide (sib.seg.getStartLoc = s.getStartLoc)) =
          (decide (sp.line = bp.line) && decide (sp.col = bp.col)) := by
        have e1 : sib.seg.getStartLoc = some (bp.line, bp.col) := by
          rw [Seg.getStartLoc, hbp]
          rfl
        have e2 : s.getStartLoc = some (sp.line, sp.col) := by
          rw [Seg.getStartLoc, hs]
          rfl
        rw [e1, e2, ← Bool.decide_and, decide_eq_decide]
        constructor
        · intro h
          injection h with h'
          exact ⟨(congrArg Prod.fst h').symm, (congrArg Prod.snd h').symm⟩
        · rintro ⟨ha, hb⟩
          rw [ha, hb]
      by_cases hmatch : (decide (sp.line = bp.line) && decide (sp.col = bp.col)) = true
      · cases hlcc : lc with
        | none =>
          have hstep : alignStep s sib none m = some m := by
            rw [alignStep, hs, hbp]
            dsimp only
            rw [if_pos hmatch]
          rw [hstep]
          dsimp only
          rw [alignInner_spec s sp hs rest none m
            (fun x hx => hpos x (List.mem_cons_of_mem _ hx)) (by simp)]
          simp
        | some c =>
          cases hcp : c.pos with
          | none => exact absurd hcp (hlc c hlcc)
          | some cp =>
            have hstep : alignStep s sib (some c) m =
                some (if m < (inferNextPos c.raw cp.line cp.col).2
                  then (inferNextPos c.raw cp.line cp.col).2 else m) := by
              rw [alignStep, hs, hbp]
              dsimp only
              rw [if_pos hmatch, hcp]
            rw [hstep]
            dsimp only
            rw [alignInner_spec s sp hs rest (some c)
              (if m < (inferNextPos c.raw cp.line cp.col).2
                then (inferNextPos c.raw cp.line cp.col).2 else m)
              (fun x hx => hpos x (List.mem_cons_of_mem _ hx))
              (fun x hx => by
                injection hx with hx'
                rw [← hx']
                simp [hcp])]
            have hnewm : (if m < (inferNextPos c.raw cp.line cp.col).2
                then (inferNextPos c.raw cp.line cp.col).2 else m) =
                max m ((c.getEndLoc.map (fun loc => loc.2)).getD 0) := by
              rw [Seg.getEndLoc, hcp]
              show (if m < (inferNextPos c.raw cp.line cp.col).2
                then (inferNextPos c.raw cp.line cp.col).2 else m) =
                max m (inferNextPos c.raw cp.line cp.col).2
              rw [Nat.max_def]
              split <;> split <;> omega
            rw [hnewm]
            congr 1
            simp only [List.any_cons, hloc, hmatch, Bool.true_or, if_true]
            split
            · rw [Nat.max_assoc, Nat.max_self]
            · rfl
      · have hstep : alignStep s sib lc m = some m := by
          cases lc with
          | none =>
            rw [alignStep, hs, hbp]
            dsimp only
            rw [if_neg hmatch]
          | some c =>
            cases hcp : c.pos with
            | none =>
              rw [alignStep, hs, hbp]
              dsimp only
              rw [if_neg hmatch]
            | some cp =>
              rw [alignStep, hs, hbp]
              dsimp only
              rw [if_neg hmatch]
        rw [hstep]
        dsimp only
        rw [alignInner_spec s sp hs rest lc m
          (fun x hx => hpos x (List.mem_cons_of_mem _ hx)) hlc]
        simp only [List.any_cons, hloc, hmatch, Bool.false_or]

/-- Folding `max` with a shifted seed. -/
theorem foldr_max_shift : ∀ (l : List Nat) (a b : Nat),
    l.foldr max (max a b) = max b (l.foldr max a)
  | [], a, b => Nat.max_comm a b
  | x :: xs, a, b => by
    show max x (xs.foldr max (max a b)) = max b (max x (xs.foldr max a))
    rw [foldr_max_shift xs a b]
    rw [← Nat.max_assoc, Nat.max_comm x b, Nat.max_assoc]

/-- A code-leaf seed is itself the last code leaf before position 0. -/
theorem lastCodeSeed_zero (lc : Option Seg) (raws : List Seg)
    (hlc : ∀ c, lc = some c → c.isCode = true) :
    lastCodeSeed lc raws 0 = lc := by
  cases lc with
  | none => rfl
  | some c =>
    show ([c].filter (fun s => s.isCode)).getLast? = some c
    rw [List.filter_cons]
    simp [hlc c rfl]

/-- Shifting the last-code-leaf scan by one position updates the seed. -/
theorem lastCodeSeed_succ (lc : Option Seg) (s : Seg) (rest : List Seg) (i : Nat) :
    lastCodeSeed lc (s :: rest) (i + 1) =
      lastCodeSeed (if s.isCode then some s else lc) rest i := by
  by_cases hc : s.isCode = true
  · rw [if_pos hc]
    unfold lastCodeSeed
    rw [List.take_succ_cons, List.filter_append]
    simp only [List.filter_cons, hc, if_true]
    rw [List.getLast?_append_cons]
    show _ = (((s :: rest.take i).filter (fun t => t.isCode))).getLast?
    simp only [List.filter_cons, hc, if_true]
  · rw [if_neg hc]
    unfold lastCodeSeed
    rw [List.take_succ_cons, List.filter_append, List.filter_append]
    simp only [List.filter_cons, hc]
    rfl

/-- Peeling one scanned leaf off the claim-side recorded columns. -/
theorem claimRecordedSeed_cons (lc : Option Seg) (s : Seg) (rest : List Seg)
    (sibs : List STree) (hlc : ∀ c, lc = some c → c.isCode = true) :
    claimRecordedSeed lc (s :: rest) sibs =
      (if sibs.any (fun sib => decide (sib.seg.getStartLoc = s.getStartLoc))
        then lc.bind (fun c => c.getEndLoc.map (fun loc => loc.2))
        else none).toList ++
      claimRecordedSeed (if s.isCode then some s else lc) rest sibs := by
  unfold claimRecordedSeed
  rw [show (s :: rest).length = rest.length + 1 from rfl,
      List.range_succ_eq_map, List.filterMap_cons]
  have hzero : lastCodeSeed lc (s :: rest) 0 = lc :=
    lastCodeSeed_zero lc _ hlc
  have htail : List.filterMap
      ((fun i => match (s :: rest).get? i with
      | none => none
      | some t =>
        if sibs.any (fun sib => decide (sib.seg.getStartLoc = t.getStartLoc)) then
          match lastCodeSeed lc (s :: rest) i with
          | none => none
          | some c => c.getEndLoc.map (fun loc => loc.2)
        else none) ∘ Nat.succ) (List.range rest.length) =
      List.filterMap (fun i => match rest.get? i with
      | none => none
      | some t =>
        if sibs.any (fun sib => decide (sib.seg.getStartLoc = t.getStartLoc)) then
          match lastCodeSeed (if s.isCode then some s else lc) rest i with
          | none => none
          | some c => c.getEndLoc.map (fun loc => loc.2)
        else none) (List.range rest.length) := by
    refine congrArg (fun f => (List.range rest.length).filterMap f) ?_
    funext i
    dsimp only [Function.comp]
    rw [List.get?_cons_succ, lastCodeSeed_succ]
  rw [List.filterMap_map, htail]
  dsimp only [List.get?_cons_zero]
  rw [hzero]
  by_cases hmany : (sibs.any
      (fun sib => decide (sib.seg.getStartLoc = s.getStartLoc))) = true
  · rw [if_pos hmany, if_pos hmany]
    cases lc with
    | none => rfl
    | some c =>
      dsimp only [Option.bind]
      cases hge : c.getEndLoc <;> rfl
  · rw [if_neg hmany, if_neg hmany]
    rfl

/-- The source's alignment scan computes exactly the maximum of the
claim-side recorded end columns. -/
theorem alignScan_spec :
    ∀ (raws : List Seg) (sibs : List STree) (lc : Option Seg) (m : Nat),
      (∀ s ∈ raws, s.pos ≠ none) →
      (∀ sib ∈ sibs, sib.seg.pos ≠ none) →
      (∀ c, lc = some c → c.pos ≠ none ∧ c.isCode = true) →
      alignScan raws sibs lc m =
        some ((claimRecordedSeed lc raws sibs).foldr max m)
  | [], sibs, lc, m, _, _, _ => by
    simp [alignScan, claimRecordedSeed]
  | s :: rest, sibs, lc, m, hraws, hsibs, hlc => by
    cases hsp : s.pos with
    | none => exact absurd hsp (hraws s (List.mem_cons_self _ _))
    | some sp =>
      have hlc' : ∀ c, (if s.isCode then some s else lc) = some c →
          c.pos ≠ none ∧ c.isCode = true := by
        intro c hcc
        by_cases hcode : s.isCode = true
        · rw [if_pos hcode] at hcc
          injection hcc with h
          subst h
          exact ⟨by simp [hsp], hcode⟩
        · rw [if_neg hcode] at hcc
          exact hlc c hcc
      have hrest : ∀ x ∈ rest, x.pos ≠ none :=
        fun x hx => hraws x (List.mem_cons_of_mem _ hx)
      rw [alignScan]
      rw [alignInner_spec s sp hsp sibs lc m hsibs (fun c h => (hlc c h).1)]
      dsimp only
      rw [alignScan_spec rest sibs (if s.isCode then some s else lc) _
        hrest hsibs hlc']
      rw [claimRecordedSeed_cons lc s rest sibs (fun c h => (hlc c h).2)]
      cases hlcc : lc with
      | none =>
        by_cases hmany : (sibs.any
            (fun sib => decide (sib.seg.getStartLoc = s.getStartLoc))) = true
        · rw [if_pos hmany, if_pos hmany]
          rfl
        · rw [if_neg hmany, if_neg hmany]
          rfl
      | some c =>
        cases hcp : c.pos with
        | none => exact absurd hcp (hlc c hlcc).1
        | some cp =>
          have hend : c.getEndLoc = some (inferNextPos c.raw cp.line cp.col) := by
            rw [Seg.getEndLoc, hcp]
            rfl
          by_cases hmany : (sibs.any
              (fun sib => decide (sib.seg.getStartLoc = s.getStartLoc))) = true
          · rw [if_pos hmany, if_pos hmany]
            dsimp only [Option.bind]
            rw [hend]
            dsimp only [Option.map, Option.getD, Option.toList]
            rw [List.cons_append, List.nil_append, List.foldr_cons, foldr_max_shift]
          · rw [if_neg hmany, if_neg hmany]
            rfl

/-- **C7 (amended)**: the Alignment Resolver returns a single space when no
ancestor of the next leaf matches the `within` class (searching leaf-upward,
stopping at the first `boundary` match); otherwise — *provided no qualifying
sibling sits on the next leaf's working line at a different column* (a
fallback the original claim omits, refuted by `c7_counterexample`) — it
returns a run of exactly `1 + max(recorded sibling end columns) − whitespace
leaf's working column` spaces, where the recorded columns are the end
positions of the last code leaf before each location-matched qualifying
sibling, per the independent claim-side definitions. -/
theorem c7_amended :
    (∀ (root : STree) (wsSeg nextSeg : Seg) (segTy : String)
        (w b : Option String),
      claimNoWithin (pathToList root nextSeg.uuid).reverse w b →
      determineAlignedInlineSpacing root wsSeg nextSeg segTy w b = some " ") ∧
    (∀ (root : STree) (wsSeg nextSeg : Seg) (segTy : String)
        (w b : Option String) (P : STree) (np wp : PosMarker),
      alignParentOf (pathToList root nextSeg.uuid).reverse w b none = some P →
      nextSeg.pos = some np →
      wsSeg.pos = some wp →
      (∀ sib ∈ qualifyingSiblings P segTy b, sib.seg.pos ≠ none) →
      (∀ sib ∈ qualifyingSiblings P segTy b, ∀ sp : PosMarker,
        sib.seg.pos = some sp → ¬(sp.line = np.line ∧ sp.col ≠ np.col)) →
      (∀ s ∈ rawSegments P, s.pos ≠ none) →
      determineAlignedInlineSpacing root wsSeg nextSeg segTy w b =
        some (mkSpaces (1 + claimMax
          (claimRecorded (rawSegments P) (qualifyingSiblings P segTy b))
          - wp.col))) := by
  constructor
  · intro root wsSeg nextSeg segTy w b h
    have hnone : alignParentOf (pathToList root nextSeg.uuid).reverse w b none =
        none :=
      (alignParentOf_none_iff w b (pathToList root nextSeg.uuid).reverse none).mpr
        ⟨rfl, h⟩
    rw [determineAlignedInlineSpacing, hnone]
  · intro root wsSeg nextSeg segTy w b P np wp hP hnp hwp hsibpos hnosame hrawpos
    rw [determineAlignedInlineSpacing, hP]
    dsimp only
    rw [sameLineCheck_false nextSeg np hnp (qualifyingSiblings P segTy b)
      hsibpos hnosame]
    dsimp only
    rw [alignScan_spec (rawSegments P) (qualifyingSiblings P segTy b) none 0
      hrawpos hsibpos (fun c h => by cases h)]
    dsimp only
    rw [hwp]
    rfl

/-- Concrete tree data for the C7 scenarios. -/
def segR : Seg := ⟨1, ["file"], "", some ⟨1, 1⟩, false⟩

/-- The alignment scope node's data. -/
def segP : Seg := ⟨2, ["scope"], "", some ⟨1, 1⟩, false⟩

/-- A code leaf `"ab"` at (1,1). -/
def segC1 : Seg := ⟨3, ["raw"], "ab", some ⟨1, 1⟩, true⟩

/-- The whitespace leaf being resized, at column 3. -/
def segW1 : Seg := ⟨4, ["whitespace"], "  ", some ⟨1, 3⟩, false⟩

/-- First `target` sibling at (1,5). -/
def segT1 : Seg := ⟨5, ["target"], "x", some ⟨1, 5⟩, true⟩

/-- Whitespace between targets. -/
def segW2 : Seg := ⟨6, ["whitespace"], "   ", some ⟨1, 6⟩, false⟩

/-- Second `target` sibling at (1,9) — same line as the first. -/
def segT2 : Seg := ⟨7, ["target"], "y", some ⟨1, 9⟩, true⟩

/-- Scope with two same-line target siblings. -/
def scopeC : STree :=
  .mk segP (.cons (.mk segC1 .nil) (.cons (.mk segW1 .nil)
    (.cons (.mk segT1 .nil) (.cons (.mk segW2 .nil)
      (.cons (.mk segT2 .nil) .nil)))))

/-- Root of the counterexample tree. -/
def rootC : STree := .mk segR (.cons scopeC .nil)

/-- **C7 (counterexample)**: with two qualifying siblings on the same working
line at different columns, the source falls back to a single space, while the
claimed formula demands `1 + 6 − 3 = 4` spaces — the claim omits the
same-line fallback. -/
theorem c7_counterexample :
    determineAlignedInlineSpacing rootC segW1 segT1 "target" (some "scope") none
      = some " " ∧
    mkSpaces (1 + claimMax (claimRecorded (rawSegments scopeC)
      (qualifyingSiblings scopeC "target" none)) - 3) = "    " ∧
    (" " : String) ≠ "    " := by
  refine ⟨by decide, by decide, by decide⟩

/-- Second `target` sibling at (1,9) — same line as the first. -/
def segT2w : Seg := ⟨7, ["target"], "y", some ⟨2, 9⟩, true⟩

/-- Scope with targets on different lines. -/
def scopeW : STree :=
  .mk segP (.cons (.mk segC1 .nil) (.cons (.mk segW1 .nil)
    (.cons (.mk segT1 .nil) (.cons (.mk segW2 .nil)
      (.cons (.mk segT2w .nil) .nil)))))

/-- Root of the witness tree. -/
def rootW : STree := .mk segR (.cons scopeW .nil)

/-- Witness for C7 (amended): both conjuncts applied at concrete trees. -/
theorem c7_witness :
    determineAlignedInlineSpacing rootC segW1 segT1 "target" none none
      = some " " ∧
    determineAlignedInlineSpacing rootW segW1 segT1 "target" (some "scope") none
      = some (mkSpaces (1 + claimMax (claimRecorded (rawSegments scopeW)
          (qualifyingSiblings scopeW "target" none)) - 3)) := by
  constructor
  · exact c7_amended.1 rootC segW1 segT1 "target" none none (fun ps hps => rfl)
  · exact c7_amended.2 rootW segW1 segT1 "target" (some "scope") none scopeW
      ⟨1, 5⟩ ⟨1, 3⟩ (by decide) (by decide) (by decide) (by decide)
      (by
        intro sib hsib sp hsp
        rw [show qualifyingSiblings scopeW "target" none =
            [STree.mk segT1 SForest.nil, STree.mk segT2w SForest.nil] from
          by decide] at hsib
        rcases List.mem_cons.mp hsib with rfl | hsib2
        · injection hsp with h
          subst h
          decide
        · rcases List.mem_cons.mp hsib2 with rfl | hsib3
          · injection hsp with h
            subst h
            decide
          · cases hsib3)
      (by decide)
